import Mathlib

/-!
Verification of the prose NER/POS core: a shallow embedding of the
maximum-entropy (GIS-trained) named-entity classifier, the averaged
perceptron part-of-speech tagger, and the BIO chunker, together with
proofs about the claims of the specification.

Modelling conventions:
* Go strings are modelled as `List Char` in the training pipeline
  (where structural reasoning about joined keys is needed) and as
  `String` in the tagger/chunker sections (where only literal
  comparisons occur).
* IEEE-754 `float64` values are modelled exactly: the training
  pipeline uses `F`, an inductive of NaN / +Inf / -Inf / finite `ℚ`
  (finite arithmetic is exact, rounding is idealised away), with the
  transcendental functions `log2`/`2^x` supplied by an abstract
  `LogOps` interpretation; the log-space-combination and probability
  claims use `FR`, the same shape over `ℝ`, with the genuine
  `Real.logb 2` and `2 ^ ·` so that exact logarithm identities hold.
* Go maps that are only ever iterated are modelled as association
  lists in insertion order (the "fixed accumulation order" of the
  specification); map lookup is exact key equality.
-/

namespace Prose

/-- IEEE-754 double values with exact finite arithmetic: NaN, +Inf, -Inf
or a finite rational. -/
inductive F where
  | nan : F
  | pinf : F
  | ninf : F
  | fin : ℚ → F
deriving DecidableEq, Repr

namespace F

/-- IEEE addition on `F` (NaN absorbs; Inf + -Inf = NaN). -/
def add : F → F → F
  | nan, _ => nan
  | _, nan => nan
  | pinf, ninf => nan
  | ninf, pinf => nan
  | pinf, _ => pinf
  | _, pinf => pinf
  | ninf, _ => ninf
  | _, ninf => ninf
  | fin a, fin b => fin (a + b)

/-- IEEE negation on `F`. -/
def neg : F → F
  | nan => nan
  | pinf => ninf
  | ninf => pinf
  | fin a => fin (-a)

/-- IEEE subtraction on `F`, as addition of the negation. -/
def sub (x y : F) : F := add x (neg y)

/-- IEEE multiplication on `F` (0 * Inf = NaN). -/
def mul : F → F → F
  | nan, _ => nan
  | _, nan => nan
  | fin a, pinf => if 0 < a then pinf else if a < 0 then ninf else nan
  | pinf, fin a => if 0 < a then pinf else if a < 0 then ninf else nan
  | fin a, ninf => if 0 < a then ninf else if a < 0 then pinf else nan
  | ninf, fin a => if 0 < a then ninf else if a < 0 then pinf else nan
  | pinf, pinf => pinf
  | pinf, ninf => ninf
  | ninf, pinf => ninf
  | ninf, ninf => pinf
  | fin a, fin b => fin (a * b)

/-- Go `math.Min`: propagates NaN, otherwise the smaller value. -/
def fmin : F → F → F
  | nan, _ => nan
  | _, nan => nan
  | ninf, _ => ninf
  | _, ninf => ninf
  | pinf, b => b
  | a, pinf => a
  | fin a, fin b => fin (min a b)

/-- IEEE strict `<` comparison (false whenever NaN is involved). -/
def flt : F → F → Bool
  | nan, _ => false
  | _, nan => false
  | ninf, ninf => false
  | ninf, _ => true
  | _, ninf => false
  | pinf, _ => false
  | fin _, pinf => true
  | fin a, fin b => decide (a < b)

end F

/-- Abstract interpretation of base-2 logarithm and exponential on
finite values. `log2q q` is only meaningful for `0 < q`; `pow2q` is
always strictly positive, `log2q 1 = 0` and `log2q 2 = 1`, as for the
genuine functions. -/
structure LogOps where
  log2q : ℚ → ℚ
  pow2q : ℚ → ℚ
  pow2q_pos : ∀ q, 0 < pow2q q
  log2q_one : log2q 1 = 0
  log2q_two : log2q 2 = 1

/-- Go `math.Log2` on `F`: `Log2 0 = -Inf`, `Log2` of a negative value
or of `-Inf` is NaN, `Log2 +Inf = +Inf`. -/
def F.log2 (L : LogOps) : F → F
  | F.nan => F.nan
  | F.pinf => F.pinf
  | F.ninf => F.nan
  | F.fin q => if 0 < q then F.fin (L.log2q q) else if q = 0 then F.ninf else F.nan

/-- Go `math.Pow(2, ·)` on `F`: `2^(-Inf) = 0`, `2^(+Inf) = +Inf`,
NaN propagates, and `2^q > 0` for finite `q`. -/
def F.pow2 (L : LogOps) : F → F
  | F.nan => F.nan
  | F.pinf => F.pinf
  | F.ninf => F.fin 0
  | F.fin q => F.fin (L.pow2q q)

/-- A concrete `LogOps` interpretation used to instantiate witnesses
(it agrees with the genuine base-2 logarithm at 1 and at 2). -/
def LQlin : LogOps where
  log2q := fun q => if q = 2 then 1 else 0
  pow2q := fun _ => 1
  pow2q_pos := fun _ => one_pos
  log2q_one := by norm_num
  log2q_two := by norm_num

/-- Go strings in the training pipeline are byte/char lists. -/
abbrev Str := List Char

/-- Association-list lookup modelling Go map indexing. -/
def mapLookup (k : Str) : List (Str × ℕ) → Option ℕ
  | [] => none
  | p :: rest => if p.1 = k then some p.2 else mapLookup k rest

/-- One NER training example: the true label and the 17 extracted
feature values (source: `type feature struct`). -/
structure feature where
  label : Str
  features : Fin 17 → Str

/-- A training corpus (source: `type featureSet []feature`). -/
abbrev featureSet := List feature

/-- The 17 feature names, in slot order (source: `featureOrder`). -/
def featureOrder : Fin 17 → Str :=
  !["bias".toList, "en-wordlist".toList, "nextpos".toList, "nextword".toList,
    "pos".toList, "pos+prevtag".toList, "prefix3".toList, "prevpos".toList,
    "prevtag".toList, "prevword".toList, "shape".toList, "shape+prevtag".toList,
    "suffix3".toList, "word".toList, "word+nextpos".toList, "word.lower".toList,
    "wordlen".toList]

/-- Joining `[fname, fval, label]` with "-" (source: `strings.Join` in
`encode`, and `byteJoin` with joiner '-' in the classifier methods;
`byteJoin_buffer_independent` below shows the scratch buffer does not
affect the produced key). -/
def joinDash (a b c : Str) : Str := a ++ '-' :: b ++ '-' :: c

/-- The joint key of corpus entry `e` at slot `i`. -/
def entryKey (e : feature) (i : Fin 17) : Str :=
  joinDash (featureOrder i) (e.features i) e.label

/-- Registering the 17 joint keys of one corpus entry in the
feature-vocabulary map, assigning fresh indices in first-seen order
(source: inner loop of func `encode`). -/
def registerSlots (m : List (Str × ℕ)) (e : feature) : List (Str × ℕ) :=
  (List.finRange 17).foldl
    (fun m i =>
      match mapLookup (entryKey e i) m with
      | some _ => m
      | none => m ++ [(entryKey e i, m.length)]) m

/-- The joint-feature vocabulary built from a corpus (source: mapping
construction in func `encode`). -/
def corpusMapping (corpus : featureSet) : List (Str × ℕ) :=
  corpus.foldl registerSlots []

/-- The ordered list of distinct labels of a corpus (source: labels
construction in func `encode`). -/
def corpusLabels (corpus : featureSet) : List Str :=
  corpus.foldl (fun ls e => if e.label ∈ ls then ls else ls ++ [e.label]) []

/-- First "-"-separated component of a key
(source: `strings.Split(label, "-")[0]` in `newMaxentClassifier`). -/
def firstSeg (s : Str) : Str := s.takeWhile (fun c => c ≠ '-')

/-- Number of distinct feature-name first components among the mapping
keys (source: the `set` in `newMaxentClassifier`). -/
def prefixCount (mapping : List (Str × ℕ)) : ℕ :=
  ((mapping.map fun kv => firstSeg kv.1).dedup).length

/-- The binary maxent classifier state (source:
`type binaryMaxentClassifier struct`; the scratch buffer `buf` is
modelled separately, see `byteJoin_buffer_independent`). The weight
vector is a dense list indexed by the vocabulary index. -/
structure binaryMaxentClassifier where
  cardinality : ℤ
  labels : List Str
  mapping : List (Str × ℕ)
  weights : List F

/-- Source: `newMaxentClassifier` — cardinality is the number of
distinct first components of mapping keys, plus one. -/
def newMaxentClassifier (weights : List F) (mapping : List (Str × ℕ))
    (labels : List Str) : binaryMaxentClassifier :=
  { cardinality := (prefixCount mapping : ℤ) + 1
    labels := labels
    mapping := mapping
    weights := weights }

/-- Source: func `encode(corpus featureSet)` — builds the vocabulary
and label list (the `count` map built there is never read and is
omitted); the weight slice starts empty. -/
def encode (corpus : featureSet) : binaryMaxentClassifier :=
  newMaxentClassifier [] (corpusMapping corpus) (corpusLabels corpus)

/-- Source: method `encode` — one indicator of value 1 for every slot
whose joint key is mapped; unmapped keys are silently dropped. -/
def binaryMaxentClassifier.encode (m : binaryMaxentClassifier)
    (features : Fin 17 → Str) (label : Str) : List (ℕ × ℤ) :=
  (List.finRange 17).foldl
    (fun enc i =>
      match mapLookup (joinDash (featureOrder i) (features i) label) m.mapping with
      | some ret => enc ++ [(ret, 1)]
      | none => enc) []

/-- Source: method `encodeGIS` — the plain encoding plus a correction
entry at index `len(mapping)` of value `cardinality - total`. -/
def binaryMaxentClassifier.encodeGIS (m : binaryMaxentClassifier)
    (features : Fin 17 → Str) (label : Str) : List (ℕ × ℤ) :=
  let encoding := m.encode features label
  let total : ℤ := (encoding.map Prod.snd).sum
  encoding ++ [(m.mapping.length, m.cardinality - total)]

/-- Source: func `empiricalCount` — dense per-index feature counts
(a zero vector of size `len(mapping)+1`, then `SetVec`/`AtVec`
accumulation) of the GIS encodings of every example at its true label.
Counts are exact integers, modelled in `ℤ` (the float vector never leaves the exact
integer range). -/
def empiricalCount (corpus : featureSet) (encoding : binaryMaxentClassifier) :
    List ℤ :=
  corpus.foldl
    (fun count entry =>
      (encoding.encodeGIS entry.features entry.label).foldl
        (fun c kv => c.set kv.1 (c.getD kv.1 0 + kv.2)) count)
    (List.replicate (encoding.mapping.length + 1) 0)

/-- Source: global `var maxLogDiff = math.Log2(1e-30)`. -/
def maxLogDiff (L : LogOps) : F := F.log2 L (F.fin (1 / 10 ^ 30))

/-- Source: func `addLogs` — log-space addition: return the larger
argument outright when the other is more than `|maxLogDiff|` below it,
otherwise combine exactly in log space. -/
def addLogs (L : LogOps) (x y : F) : F :=
  if F.flt x (F.add y (maxLogDiff L)) then y
  else if F.flt y (F.add x (maxLogDiff L)) then x
  else
    let base := F.fmin x y
    F.add base (F.log2 L (F.add (F.pow2 L (F.sub x base)) (F.pow2 L (F.sub y base))))

/-- Source: func `sumLogs` — fold of `addLogs` over the list, `-Inf`
for the empty list. -/
def sumLogs (L : LogOps) (logs : List F) : F :=
  match logs with
  | [] => F.ninf
  | x :: rest => rest.foldl (addLogs L) x

/-- Source: `type probEnc struct` — a log-probability together with the
GIS encoding it was computed from. -/
structure probEnc where
  prob : F
  vec : List (ℕ × ℤ)

/-- IEEE test `x <= math.Inf(-1)`: true exactly for `-Inf` (NaN
compares false, and nothing is below `-Inf`). -/
def leNegInf : F → Bool
  | F.ninf => true
  | _ => false

/-- Go `1.0 / float64(n)` for a length `n` (`+Inf` when `n = 0`). -/
def goInv (n : ℕ) : F := if n = 0 then F.pinf else F.fin (1 / (n : ℚ))

/-- Source: func `newMappedProbDist` with `normalize` — normalise the
log scores by the log-space total; if the total is `-Inf`, fall back to
the uniform value `log2(1/n)`. The Go map is an association list in
label order. -/
def newMappedProbDist (L : LogOps) (dict : List (Str × probEnc))
    (normalize : Bool) : List (Str × probEnc) :=
  if normalize then
    let values := dict.map fun kv => kv.2.prob
    let sum := sumLogs L values
    if leNegInf sum then
      let p := F.log2 L (goInv dict.length)
      dict.map fun kv => (kv.1, { kv.2 with prob := p })
    else
      dict.map fun kv => (kv.1, { kv.2 with prob := F.sub kv.2.prob sum })
  else dict

/-- Source: method `probClassify` — GIS-encoded raw score for every
label, then normalisation. Weight reads are in range for every index
an encoding can produce. -/
def probClassify (L : LogOps) (model : binaryMaxentClassifier)
    (features : Fin 17 → Str) : List (Str × probEnc) :=
  let scores := model.labels.map fun label =>
    let vec := model.encodeGIS features label
    let total := vec.foldl
      (fun t entry =>
        F.add t (F.mul (model.weights.getD entry.1 F.nan) (F.fin (entry.2 : ℚ))))
      (F.fin 0)
    (label, { prob := total, vec := vec })
  newMappedProbDist L scores true

/-- Source: func `estCount` — expected feature counts under the current
model: a zero vector of size `len(encoder.mapping)+1`, accumulating
`2^logprob * value` at each encoded index, over every example and
label. -/
def estCount (L : LogOps) (model : binaryMaxentClassifier) (corpus : featureSet)
    (encoder : binaryMaxentClassifier) : List F :=
  corpus.foldl
    (fun count entry =>
      let pdist := probClassify L model entry.features
      pdist.foldl
        (fun c kv =>
          let prob := F.pow2 L kv.2.prob
          kv.2.vec.foldl
            (fun c2 enc =>
              c2.set enc.1
                (F.add (c2.getD enc.1 F.nan) (F.mul prob (F.fin (enc.2 : ℚ))))) c)
        count)
    (List.replicate (encoder.mapping.length + 1) (F.fin 0))

/-- Indices whose empirical count is zero, in ascending order (source:
the `unattested` slice in `extracterFromData`). -/
def unattestedList (empCount : List ℤ) : List ℕ :=
  (List.range empCount.length).filter fun i => empCount.getD i 0 = 0

/-- One GIS round (source: the body of the 100-iteration loop in
`extracterFromData`): estimated counts, +1 at unattested indices, log2
of every entry, then
`weights[i] += cInv * (log2 empirical[i] - log2 estimated[i])`. -/
def gisStep (L : LogOps) (encoding : binaryMaxentClassifier) (corpus : featureSet)
    (unattested : List ℕ) (empfreq : List F) (cInv : F) (weights : List F) :
    List F :=
  let model := { encoding with weights := weights }
  let est0 := estCount L model corpus encoding
  let est1 := unattested.foldl
    (fun e idx => e.set idx (F.add (e.getD idx F.nan) (F.fin 1))) est0
  let est2 := est1.map (F.log2 L)
  let est3 := (empfreq.zipWith F.sub est2).map (F.mul cInv)
  weights.zipWith F.add est3

/-- The initial GIS weight vector: zeros of size rows, then `-Inf` at
every unattested index (source: lines building `weights` in
`extracterFromData`). -/
def initWeights (rows : ℕ) (unattested : List ℕ) : List F :=
  unattested.foldl (fun w idx => w.set idx F.ninf) (List.replicate rows (F.fin 0))

/-- The weight vector of `extracterFromData` after `r` GIS rounds
(`r = 0` is the initial vector: zero at attested indices, `-Inf` at
unattested ones). -/
def gisWeights (L : LogOps) (corpus : featureSet) (r : ℕ) : List F :=
  let encoding := encode corpus
  let cInv := F.fin (1 / (encoding.cardinality : ℚ))
  let empCount := empiricalCount corpus encoding
  let unattested := unattestedList empCount
  let empfreq := empCount.map fun z => F.log2 L (F.fin (z : ℚ))
  (gisStep L encoding corpus unattested empfreq cInv)^[r]
    (initWeights (encoding.mapping.length + 1) unattested)

/-- Source: func `extracterFromData` — the trained classifier: the
corpus encoding with the weights after 100 GIS rounds. -/
def extracterFromData (L : LogOps) (corpus : featureSet) : binaryMaxentClassifier :=
  { encode corpus with weights := gisWeights L corpus 100 }

/-! Generic fold lemmas. -/

/-- A property preserved by every fold step holds of the fold. -/
theorem foldl_preserve {α β : Type} (P : α → Prop) (step : α → β → α) :
    ∀ (l : List β) (a : α), (∀ a b, b ∈ l → P a → P (step a b)) → P a →
      P (l.foldl step a)
  | [], _, _, ha => ha
  | b :: l, a, h, ha =>
    foldl_preserve P step l (step a b) (fun a c hc => h a c (List.mem_cons_of_mem b hc))
      (h a b (List.mem_cons_self b l) ha)

/-- A property established when an element is processed, and preserved by
every later step, holds of the fold for every element of the list. -/
theorem foldl_establish {α β : Type} (Q : β → α → Prop) (step : α → β → α)
    (hstep : ∀ a b, Q b (step a b)) (hmono : ∀ a b c, Q b a → Q b (step a c)) :
    ∀ (l : List β) (a : α) (b : β), b ∈ l → Q b (l.foldl step a)
  | c :: l, a, b, hb => by
    rcases List.mem_cons.1 hb with h | h
    · subst h
      exact List.foldl_cons (f := step) .. ▸
        foldl_preserve (Q b) step l (step a b) (fun x y _ => hmono x b y) (hstep a b)
    · exact List.foldl_cons (f := step) .. ▸ foldl_establish Q step hstep hmono l (step a c) b h

/-- A fold that appends `[c]` whenever a partial function fires is the
filterMap of that function. -/
theorem foldl_opt_append {β γ : Type} (g : β → Option γ) (step : List γ → β → List γ)
    (hstep : ∀ a b, step a b = match g b with | some c => a ++ [c] | none => a) :
    ∀ (l : List β) (acc : List γ), l.foldl step acc = acc ++ l.filterMap g
  | [], acc => by simp
  | b :: l, acc => by
    have hs := hstep acc b
    cases hg : g b with
    | none =>
      rw [hg] at hs
      simpa [hs, List.filterMap_cons_none hg] using foldl_opt_append g step hstep l acc
    | some c =>
      rw [hg] at hs
      simpa [hs, List.filterMap_cons_some hg] using
        foldl_opt_append g step hstep l (acc ++ [c])

/-- A filterMap whose function fires on every element has full length. -/
theorem length_filterMap_of_isSome {β γ : Type} (g : β → Option γ) :
    ∀ l : List β, (∀ b ∈ l, (g b).isSome) → (l.filterMap g).length = l.length
  | [], _ => rfl
  | b :: l, h => by
    rcases Option.isSome_iff_exists.1 (h b (List.mem_cons_self b l)) with ⟨c, hc⟩
    simp [List.filterMap_cons_some hc,
      length_filterMap_of_isSome g l fun x hx => h x (List.mem_cons_of_mem b hx)]

/-! Dense-vector helpers. -/

/-- Reading a set entry back, in range. -/
theorem getD_set_self {α : Type} (l : List α) {i : ℕ} (h : i < l.length) (v d : α) :
    (l.set i v).getD i d = v := by
  simp [List.getD_eq_getElem?_getD, List.getElem?_set_self h]

/-- Reading an entry other than the set one. -/
theorem getD_set_ne {α : Type} (l : List α) {i j : ℕ} (h : i ≠ j) (v d : α) :
    (l.set i v).getD j d = l.getD j d := by
  simp [List.getD_eq_getElem?_getD, List.getElem?_set_ne h]

/-! Lookup lemmas for the association-list model of Go maps. -/

/-- Concatenation looks left first. -/
theorem mapLookup_append (k : Str) :
    ∀ m t, mapLookup k (m ++ t)
      = match mapLookup k m with | some v => some v | none => mapLookup k t
  | [], _ => rfl
  | p :: m, t => by
    by_cases h : p.1 = k <;> simp [mapLookup, h, mapLookup_append k m t]

/-- A failed lookup means the key is absent. -/
theorem mapLookup_eq_none_iff (k : Str) :
    ∀ m, mapLookup k m = none ↔ k ∉ m.map Prod.fst
  | [] => by simp [mapLookup]
  | p :: m => by
    by_cases h : p.1 = k <;>
      simp [mapLookup, h, mapLookup_eq_none_iff k m, eq_comm (a := k)]

/-- A successful lookup returns a member pair. -/
theorem mem_of_mapLookup {k : Str} {v : ℕ} :
    ∀ {m}, mapLookup k m = some v → (k, v) ∈ m
  | [], h => by simp [mapLookup] at h
  | p :: m, h => by
    by_cases hp : p.1 = k
    · simp only [mapLookup, hp, if_pos] at h
      obtain rfl : p.2 = v := by injection h
      exact hp ▸ List.mem_cons_self p m
    · simp only [mapLookup, hp, if_neg, if_false] at h
      exact List.mem_cons_of_mem p (mem_of_mapLookup h)

/-- With nodup keys, every member pair is found by lookup. -/
theorem mapLookup_of_mem_nodup {k : Str} {v : ℕ} :
    ∀ {m}, (m.map Prod.fst).Nodup → (k, v) ∈ m → mapLookup k m = some v
  | [], _, hm => by simp at hm
  | p :: m, hn, hm => by
    rcases List.mem_cons.1 hm with h | h
    · subst h; simp [mapLookup]
    · have hk : k ∈ m.map Prod.fst := List.mem_map.2 ⟨(k, v), h, rfl⟩
      have hp : p.1 ≠ k := by
        rintro rfl
        exact (List.nodup_cons.1 hn).1 hk
      simp only [mapLookup, hp, if_neg, if_false]
      exact mapLookup_of_mem_nodup (List.nodup_cons.1 hn).2 h

/-! Structural invariants of the vocabulary built by `encode`. -/

/-- A well-formed vocabulary: values are the indices `0..len-1` in
order, and keys are distinct. -/
def GoodMap (m : List (Str × ℕ)) : Prop :=
  m.map Prod.snd = List.range m.length ∧ (m.map Prod.fst).Nodup

theorem goodMap_nil : GoodMap [] := by constructor <;> simp

/-- Appending a fresh key at index `len` preserves well-formedness. -/
theorem goodMap_append {m : List (Str × ℕ)} {k : Str}
    (hm : GoodMap m) (hk : mapLookup k m = none) :
    GoodMap (m ++ [(k, m.length)]) := by
  refine ⟨?_, ?_⟩
  · simp [hm.1, List.range_succ]
  · rw [List.map_append]
    refine List.Nodup.append hm.2 (by simp) ?_
    intro x hx hx'
    simp only [List.map_cons, List.map_nil, List.mem_singleton] at hx'
    exact (mapLookup_eq_none_iff k m).1 hk (hx' ▸ hx)

/-- One slot-registration step preserves well-formedness. -/
theorem goodMap_registerStep {m : List (Str × ℕ)} (e : feature) (i : Fin 17)
    (hm : GoodMap m) :
    GoodMap (match mapLookup (entryKey e i) m with
      | some _ => m
      | none => m ++ [(entryKey e i, m.length)]) := by
  cases h : mapLookup (entryKey e i) m with
  | some _ => exact hm
  | none => exact goodMap_append hm h

theorem goodMap_registerSlots {m : List (Str × ℕ)} (e : feature) (hm : GoodMap m) :
    GoodMap (registerSlots m e) :=
  foldl_preserve GoodMap _ (List.finRange 17) m
    (fun a i _ ha => goodMap_registerStep e i ha) hm

theorem goodMap_corpusMapping (corpus : featureSet) : GoodMap (corpusMapping corpus) :=
  foldl_preserve GoodMap registerSlots corpus []
    (fun a e _ ha => goodMap_registerSlots e ha) goodMap_nil

/-- Every pair of the vocabulary has its value below the length. -/
theorem snd_lt_of_mem_goodMap {m : List (Str × ℕ)} (hm : GoodMap m)
    {p : Str × ℕ} (hp : p ∈ m) : p.2 < m.length := by
  have : p.2 ∈ m.map Prod.snd := List.mem_map.2 ⟨p, hp, rfl⟩
  rw [hm.1] at this
  exact List.mem_range.1 this

/-- Every index below the length is the value of some pair. -/
theorem exists_key_of_lt_goodMap {m : List (Str × ℕ)} (hm : GoodMap m)
    {j : ℕ} (hj : j < m.length) : ∃ k, (k, j) ∈ m := by
  have : j ∈ m.map Prod.snd := by rw [hm.1]; exact List.mem_range.2 hj
  rcases List.mem_map.1 this with ⟨p, hp, hpj⟩
  exact ⟨p.1, by rwa [show (p.1, j) = p from Prod.ext rfl hpj.symm]⟩

/-- Slot registration only appends pairs. -/
theorem registerSlots_suffix (e : feature) (m : List (Str × ℕ)) :
    ∃ t, registerSlots m e = m ++ t := by
  refine foldl_preserve (fun a => ∃ t, a = m ++ t) _ (List.finRange 17) m
    (fun a i _ ⟨t, ht⟩ => ?_) ⟨[], by simp⟩
  cases h : mapLookup (entryKey e i) a with
  | some _ => exact ⟨t, ht⟩
  | none => exact ⟨t ++ [(entryKey e i, a.length)], by simp [ht]⟩

/-- A successful lookup survives any later registration. -/
theorem mapLookup_mono_registerSlots {k : Str} {v : ℕ} {m : List (Str × ℕ)}
    (e : feature) (h : mapLookup k m = some v) :
    mapLookup k (registerSlots m e) = some v := by
  rcases registerSlots_suffix e m with ⟨t, ht⟩
  rw [ht, mapLookup_append, h]

/-- After an entry is registered, each of its 17 keys is found. -/
theorem registerSlots_finds (e : feature) (m : List (Str × ℕ)) (i : Fin 17) :
    ∃ v, mapLookup (entryKey e i) (registerSlots m e) = some v := by
  have base : ∀ (a : List (Str × ℕ)) (i : Fin 17),
      ∃ v, mapLookup (entryKey e i)
        (match mapLookup (entryKey e i) a with
          | some _ => a
          | none => a ++ [(entryKey e i, a.length)]) = some v := by
    intro a i
    cases h : mapLookup (entryKey e i) a with
    | some v => exact ⟨v, by simpa [h]⟩
    | none => exact ⟨a.length, by rw [mapLookup_append, h]; simp [mapLookup]⟩
  have mono : ∀ (a : List (Str × ℕ)) (i j : Fin 17),
      (∃ v, mapLookup (entryKey e i) a = some v) →
      ∃ v, mapLookup (entryKey e i)
        (match mapLookup (entryKey e j) a with
          | some _ => a
          | none => a ++ [(entryKey e j, a.length)]) = some v := by
    intro a i j ⟨v, hv⟩
    cases h : mapLookup (entryKey e j) a with
    | some _ => exact ⟨v, hv⟩
    | none => exact ⟨v, by rw [mapLookup_append, hv]⟩
  exact foldl_establish (fun i a => ∃ v, mapLookup (entryKey e i) a = some v) _
    (fun a i => base a i) (fun a i j h => mono a i j h) (List.finRange 17) m i
    (List.mem_finRange i)

/-- Every key of every corpus entry is found in the corpus vocabulary. -/
theorem corpusMapping_finds {corpus : featureSet} {e : feature} (he : e ∈ corpus)
    (i : Fin 17) : ∃ v, mapLookup (entryKey e i) (corpusMapping corpus) = some v :=
  foldl_establish (fun e m => ∀ i : Fin 17, ∃ v, mapLookup (entryKey e i) m = some v)
    registerSlots
    (fun a b i => registerSlots_finds b a i)
    (fun a b c h i => by
      rcases h i with ⟨v, hv⟩
      exact ⟨v, mapLookup_mono_registerSlots c hv⟩)
    corpus [] e he i

/-- Every key of the corpus vocabulary is a joint key of some entry. -/
theorem corpusMapping_origin (corpus : featureSet) :
    ∀ p ∈ corpusMapping corpus, ∃ e ∈ corpus, ∃ i : Fin 17, p.1 = entryKey e i := by
  have hstep : ∀ (m : List (Str × ℕ)) (e : feature) (p : Str × ℕ),
      p ∈ registerSlots m e → p ∈ m ∨ ∃ i : Fin 17, p.1 = entryKey e i := by
    intro m e p hp
    refine foldl_preserve (fun a => ∀ q ∈ a, q ∈ m ∨ ∃ i : Fin 17, q.1 = entryKey e i)
      _ (List.finRange 17) m (fun a i _ ha q hq => ?_) (fun q hq => Or.inl hq) p hp
    revert hq
    cases h : mapLookup (entryKey e i) a with
    | some _ => exact fun hq => ha q hq
    | none =>
      intro hq
      rcases List.mem_append.1 hq with h' | h'
      · exact ha q h'
      · simp only [List.mem_singleton] at h'
        exact Or.inr ⟨i, by rw [h']⟩
  refine foldl_preserve
    (fun m => ∀ p ∈ m, ∃ e ∈ corpus, ∃ i : Fin 17, p.1 = entryKey e i)
    registerSlots corpus [] (fun a e he ha p hp => ?_) (by simp)
  rcases hstep a e p hp with h | ⟨i, hi⟩
  · exact ha p h
  · exact ⟨e, he, i, hi⟩

/-! Characterisation of the binary encoding. -/

/-- The per-slot partial indicator function underlying `encode`. -/
def slotHit (m : binaryMaxentClassifier) (features : Fin 17 → Str) (label : Str)
    (i : Fin 17) : Option (ℕ × ℤ) :=
  (mapLookup (joinDash (featureOrder i) (features i) label) m.mapping).map
    fun ret => (ret, 1)

theorem encode_eq_filterMap (m : binaryMaxentClassifier) (features : Fin 17 → Str)
    (label : Str) :
    m.encode features label = (List.finRange 17).filterMap (slotHit m features label) := by
  rw [binaryMaxentClassifier.encode]
  have h := foldl_opt_append (slotHit m features label)
    (fun enc i =>
      match mapLookup (joinDash (featureOrder i) (features i) label) m.mapping with
      | some ret => enc ++ [(ret, 1)]
      | none => enc)
    (fun a b => by
      cases hb : mapLookup (joinDash (featureOrder b) (features b) label) m.mapping <;>
        simp [slotHit, hb])
    (List.finRange 17) []
  rw [List.nil_append] at h
  exact h

/-- Every emitted indicator has value 1. -/
theorem encode_values_one (m : binaryMaxentClassifier) (features : Fin 17 → Str)
    (label : Str) : ∀ kv ∈ m.encode features label, kv.2 = 1 := by
  intro kv hkv
  rw [encode_eq_filterMap] at hkv
  rcases List.mem_filterMap.1 hkv with ⟨i, _, hi⟩
  rcases Option.map_eq_some'.1 hi with ⟨ret, _, h2⟩
  rw [← h2]

/-- Every emitted indicator's index is a mapping value. -/
theorem encode_keys_mem (m : binaryMaxentClassifier) (features : Fin 17 → Str)
    (label : Str) : ∀ kv ∈ m.encode features label,
      ∃ k, (k, kv.1) ∈ m.mapping := by
  intro kv hkv
  rw [encode_eq_filterMap] at hkv
  rcases List.mem_filterMap.1 hkv with ⟨i, _, hi⟩
  rcases Option.map_eq_some'.1 hi with ⟨ret, h1, h2⟩
  exact ⟨joinDash (featureOrder i) (features i) label,
    by rw [← h2]; exact mem_of_mapLookup h1⟩

/-- A found key contributes its indicator to the encoding. -/
theorem mem_encode_of_lookup {m : binaryMaxentClassifier} {features : Fin 17 → Str}
    {label : Str} {i : Fin 17} {v : ℕ}
    (h : mapLookup (joinDash (featureOrder i) (features i) label) m.mapping = some v) :
    ((v, 1) : ℕ × ℤ) ∈ m.encode features label := by
  rw [encode_eq_filterMap]
  exact List.mem_filterMap.2 ⟨i, List.mem_finRange i, by simp [slotHit, h]⟩

/-- When every slot's key is found, the encoding has all 17 indicators. -/
theorem encode_length_of_finds {m : binaryMaxentClassifier} {features : Fin 17 → Str}
    {label : Str}
    (h : ∀ i : Fin 17,
      ∃ v, mapLookup (joinDash (featureOrder i) (features i) label) m.mapping = some v) :
    (m.encode features label).length = 17 := by
  rw [encode_eq_filterMap,
    length_filterMap_of_isSome _ _ (fun i _ => ?_), List.length_finRange]
  rcases h i with ⟨v, hv⟩
  simp [slotHit, hv]

/-- The total indicator mass of an all-ones encoding is its length. -/
theorem sum_snd_encode (m : binaryMaxentClassifier) (features : Fin 17 → Str)
    (label : Str) :
    ((m.encode features label).map Prod.snd).sum = (m.encode features label).length := by
  have h : (m.encode features label).map Prod.snd
      = List.replicate (m.encode features label).length 1 := by
    refine List.eq_replicate.2 ⟨by simp, ?_⟩
    intro b hb
    rcases List.mem_map.1 hb with ⟨kv, hkv, hb'⟩
    rw [← hb']
    exact encode_values_one m features label kv hkv
  rw [h]
  simp [List.sum_replicate]

/-! Accumulated counts as sums of per-entry contributions. -/

/-- The contribution of one encoding to the count at index `i`. -/
def contrib (kvs : List (ℕ × ℤ)) (i : ℕ) : ℤ :=
  (kvs.map fun kv => if kv.1 = i then kv.2 else 0).sum

theorem contrib_cons (kv : ℕ × ℤ) (kvs : List (ℕ × ℤ)) (i : ℕ) :
    contrib (kv :: kvs) i = (if kv.1 = i then kv.2 else 0) + contrib kvs i := by
  simp [contrib]

theorem contrib_append (a b : List (ℕ × ℤ)) (i : ℕ) :
    contrib (a ++ b) i = contrib a i + contrib b i := by
  simp [contrib]

theorem contrib_nonneg {kvs : List (ℕ × ℤ)} (i : ℕ) (h : ∀ kv ∈ kvs, 0 ≤ kv.2) :
    0 ≤ contrib kvs i := by
  refine List.sum_nonneg ?_
  intro x hx
  rcases List.mem_map.1 hx with ⟨kv, hkv, hx'⟩
  rw [← hx']
  by_cases hki : kv.1 = i <;> simp [hki, h kv hkv]

theorem le_contrib_of_mem {kvs : List (ℕ × ℤ)} {i : ℕ} {v : ℤ}
    (hm : ((i, v) : ℕ × ℤ) ∈ kvs) (h : ∀ kv ∈ kvs, 0 ≤ kv.2) :
    v ≤ contrib kvs i := by
  refine List.single_le_sum ?_ v (List.mem_map.2 ⟨(i, v), hm, by simp⟩)
  intro x hx
  rcases List.mem_map.1 hx with ⟨kv, hkv, hx'⟩
  rw [← hx']
  by_cases hki : kv.1 = i <;> simp [hki, h kv hkv]

theorem contrib_eq_zero {kvs : List (ℕ × ℤ)} {i : ℕ} (h : ∀ kv ∈ kvs, kv.1 ≠ i) :
    contrib kvs i = 0 := by
  refine List.sum_eq_zero ?_
  intro x hx
  rcases List.mem_map.1 hx with ⟨kv, hkv, hx'⟩
  simp [← hx', h kv hkv]

/-- The accumulation step of `empiricalCount` preserves vector length. -/
theorem length_countStep (kvs : List (ℕ × ℤ)) (c : List ℤ) :
    (kvs.foldl (fun c kv => c.set kv.1 (c.getD kv.1 0 + kv.2)) c).length = c.length := by
  refine foldl_preserve (fun a => a.length = c.length)
    (fun c kv => c.set kv.1 (c.getD kv.1 0 + kv.2)) kvs c
    (fun a kv _ ha => by simp [ha]) rfl

/-- Accumulating one encoding adds exactly its contribution at every
in-range index whose updates stay in range. -/
theorem countStep_getD :
    ∀ (kvs : List (ℕ × ℤ)) (c : List ℤ) (i : ℕ), i < c.length →
      (∀ kv ∈ kvs, kv.1 < c.length) →
      (kvs.foldl (fun c kv => c.set kv.1 (c.getD kv.1 0 + kv.2)) c).getD i 0
        = c.getD i 0 + contrib kvs i
  | [], c, i, _, _ => by simp [contrib]
  | kv :: kvs, c, i, hi, hk => by
    have hlen : (c.set kv.1 (c.getD kv.1 0 + kv.2)).length = c.length := by simp
    have ih := countStep_getD kvs (c.set kv.1 (c.getD kv.1 0 + kv.2)) i
      (by rw [hlen]; exact hi)
      (fun x hx => by rw [hlen]; exact hk x (List.mem_cons_of_mem kv hx))
    rw [List.foldl_cons, ih, contrib_cons]
    by_cases hki : kv.1 = i
    · subst hki
      rw [getD_set_self c hi, if_pos rfl]
      ring
    · rw [getD_set_ne c hki, if_neg hki, zero_add]

/-- The empirical count vector has size `rows`. -/
theorem empiricalCount_length (corpus : featureSet) (encoding : binaryMaxentClassifier) :
    (empiricalCount corpus encoding).length = encoding.mapping.length + 1 := by
  refine foldl_preserve (fun a => a.length = encoding.mapping.length + 1)
    (fun count entry =>
      (encoding.encodeGIS entry.features entry.label).foldl
        (fun c kv => c.set kv.1 (c.getD kv.1 0 + kv.2)) count)
    corpus (List.replicate (encoding.mapping.length + 1) 0)
    (fun a e _ ha => by
      show (List.foldl _ a _).length = _
      rw [length_countStep]; exact ha) (by simp)

/-- The empirical count at an in-range index is the sum of per-entry
contributions, provided every encoding index is in range. -/
theorem empiricalCount_getD (corpus : featureSet) (encoding : binaryMaxentClassifier)
    (hkeys : ∀ e ∈ corpus, ∀ kv ∈ encoding.encodeGIS e.features e.label,
      kv.1 < encoding.mapping.length + 1)
    (i : ℕ) (hi : i < encoding.mapping.length + 1) :
    (empiricalCount corpus encoding).getD i 0
      = (corpus.map fun e => contrib (encoding.encodeGIS e.features e.label) i).sum := by
  have main : ∀ (cs : featureSet) (c : List ℤ), c.length = encoding.mapping.length + 1 →
      (∀ e ∈ cs, ∀ kv ∈ encoding.encodeGIS e.features e.label,
        kv.1 < encoding.mapping.length + 1) →
      (cs.foldl (fun count entry =>
        (encoding.encodeGIS entry.features entry.label).foldl
          (fun c kv => c.set kv.1 (c.getD kv.1 0 + kv.2)) count) c).getD i 0
        = c.getD i 0
          + (cs.map fun e => contrib (encoding.encodeGIS e.features e.label) i).sum := by
    intro cs
    induction cs with
    | nil => intro c _ _; simp
    | cons e cs ih =>
      intro c hc hks
      rw [List.foldl_cons, ih _ (by rw [length_countStep]; exact hc)
        (fun x hx => hks x (List.mem_cons_of_mem e hx))]
      rw [countStep_getD _ c i (by rw [hc]; exact hi)
        (fun kv hkv => by rw [hc]; exact hks e (List.mem_cons_self e cs) kv hkv)]
      simp [add_assoc]
  rw [empiricalCount, main corpus _ (by simp) hkeys]
  simp [List.getD_eq_getElem?_getD, List.getElem?_replicate, hi]

/-! Cardinality of a nonempty corpus encoding is 18. -/

/-- The first component of each of the 17 feature names (the name
"en-wordlist" contributes "en"; all others have no dash). -/
def pfxTable : Fin 17 → Str :=
  !["bias".toList, "en".toList, "nextpos".toList, "nextword".toList,
    "pos".toList, "pos+prevtag".toList, "prefix3".toList, "prevpos".toList,
    "prevtag".toList, "prevword".toList, "shape".toList, "shape+prevtag".toList,
    "suffix3".toList, "word".toList, "word+nextpos".toList, "word.lower".toList,
    "wordlen".toList]

theorem firstSeg_append_dash (a rest : Str) (ha : '-' ∉ a) :
    firstSeg (a ++ '-' :: rest) = a := by
  induction a with
  | nil => rfl
  | cons c a ih =>
    have hc : c ≠ '-' := fun h => ha (h ▸ List.mem_cons_self c a)
    have ha' : '-' ∉ a := fun h => ha (List.mem_cons_of_mem c h)
    have hstep : firstSeg ((c :: a) ++ '-' :: rest) = c :: firstSeg (a ++ '-' :: rest) := by
      simp [firstSeg, List.takeWhile_cons, hc]
    rw [hstep, ih ha']

/-- Every joint key's first component is the slot's name prefix. -/
theorem firstSeg_entryKey (e : feature) (i : Fin 17) :
    firstSeg (entryKey e i) = pfxTable i := by
  have key_eq : entryKey e i = featureOrder i ++ '-' :: (e.features i ++ '-' :: e.label) := by
    simp [entryKey, joinDash]
  fin_cases i <;> rw [key_eq]
  · exact firstSeg_append_dash "bias".toList _ (by decide)
  · exact firstSeg_append_dash "en".toList _ (by decide)
  · exact firstSeg_append_dash "nextpos".toList _ (by decide)
  · exact firstSeg_append_dash "nextword".toList _ (by decide)
  · exact firstSeg_append_dash "pos".toList _ (by decide)
  · exact firstSeg_append_dash "pos+prevtag".toList _ (by decide)
  · exact firstSeg_append_dash "prefix3".toList _ (by decide)
  · exact firstSeg_append_dash "prevpos".toList _ (by decide)
  · exact firstSeg_append_dash "prevtag".toList _ (by decide)
  · exact firstSeg_append_dash "prevword".toList _ (by decide)
  · exact firstSeg_append_dash "shape".toList _ (by decide)
  · exact firstSeg_append_dash "shape+prevtag".toList _ (by decide)
  · exact firstSeg_append_dash "suffix3".toList _ (by decide)
  · exact firstSeg_append_dash "word".toList _ (by decide)
  · exact firstSeg_append_dash "word+nextpos".toList _ (by decide)
  · exact firstSeg_append_dash "word.lower".toList _ (by decide)
  · exact firstSeg_append_dash "wordlen".toList _ (by decide)

/-- The prefix in position `i` belongs to the fixed 17-element table. -/
theorem pfxTable_mem_finset (i : Fin 17) :
    pfxTable i ∈ (List.finRange 17).map pfxTable :=
  List.mem_map.2 ⟨i, List.mem_finRange i, rfl⟩

/-- For a nonempty corpus the vocabulary exposes exactly the 17 distinct
feature-name prefixes, so the classifier cardinality is 18. -/
theorem prefixCount_corpusMapping (corpus : featureSet) (hne : corpus ≠ []) :
    prefixCount (corpusMapping corpus) = 17 := by
  have good := goodMap_corpusMapping corpus
  have origin := corpusMapping_origin corpus
  rw [prefixCount, ← List.card_toFinset]
  have hset : ((corpusMapping corpus).map fun kv => firstSeg kv.1).toFinset
      = ((List.finRange 17).map pfxTable).toFinset := by
    apply Finset.Subset.antisymm
    · intro x hx
      rw [List.mem_toFinset] at hx ⊢
      rcases List.mem_map.1 hx with ⟨kv, hkv, hx'⟩
      rcases origin kv hkv with ⟨e, _, i, hkey⟩
      rw [← hx', hkey, firstSeg_entryKey]
      exact pfxTable_mem_finset i
    · intro x hx
      rw [List.mem_toFinset] at hx ⊢
      rcases List.mem_map.1 hx with ⟨i, _, hx'⟩
      rcases List.exists_mem_of_ne_nil corpus hne with ⟨e, he⟩
      rcases corpusMapping_finds he i with ⟨v, hv⟩
      refine List.mem_map.2 ⟨(entryKey e i, v), mem_of_mapLookup hv, ?_⟩
      rw [firstSeg_entryKey, hx']
  rw [hset]
  decide

/-! Every index of a nonempty corpus has positive empirical count. -/

theorem encode_mapping_eq (corpus : featureSet) :
    (encode corpus).mapping = corpusMapping corpus := rfl

theorem encode_cardinality (corpus : featureSet) (hne : corpus ≠ []) :
    (encode corpus).cardinality = 18 := by
  show (prefixCount (corpusMapping corpus) : ℤ) + 1 = 18
  rw [prefixCount_corpusMapping corpus hne]
  norm_num

/-- Lookups of an entry's own keys through the classifier mapping. -/
theorem encode_finds_own {corpus : featureSet} {e : feature} (he : e ∈ corpus)
    (i : Fin 17) :
    ∃ v, mapLookup (joinDash (featureOrder i) (e.features i) e.label)
      (encode corpus).mapping = some v :=
  corpusMapping_finds he i

/-- The own-label plain encoding of a corpus entry has all 17
indicators. -/
theorem encode_own_length {corpus : featureSet} {e : feature} (he : e ∈ corpus) :
    ((encode corpus).encode e.features e.label).length = 17 :=
  encode_length_of_finds (encode_finds_own he)

/-- The own-label GIS encoding of a corpus entry: the 17 indicators,
plus the correction entry of value exactly 1. -/
theorem encodeGIS_own_eq {corpus : featureSet} {e : feature} (he : e ∈ corpus)
    (hne : corpus ≠ []) :
    (encode corpus).encodeGIS e.features e.label
      = (encode corpus).encode e.features e.label
        ++ [((corpusMapping corpus).length, 1)] := by
  rw [binaryMaxentClassifier.encodeGIS]
  have hsum : (((encode corpus).encode e.features e.label).map Prod.snd).sum = 17 := by
    rw [sum_snd_encode, encode_own_length he]
    norm_num
  rw [hsum, encode_cardinality corpus hne]
  norm_num [encode_mapping_eq]

/-- All values of an own-label GIS encoding are nonnegative. -/
theorem encodeGIS_own_values_nonneg {corpus : featureSet} {e : feature}
    (he : e ∈ corpus) (hne : corpus ≠ []) :
    ∀ kv ∈ (encode corpus).encodeGIS e.features e.label, 0 ≤ kv.2 := by
  intro kv hkv
  rw [encodeGIS_own_eq he hne] at hkv
  rcases List.mem_append.1 hkv with h | h
  · rw [encode_values_one _ _ _ kv h]; norm_num
  · simp only [List.mem_singleton] at h
    rw [h]; norm_num

/-- All indices of an own-label GIS encoding are below `rows`. -/
theorem encodeGIS_own_keys_lt {corpus : featureSet} {e : feature}
    (he : e ∈ corpus) (hne : corpus ≠ []) :
    ∀ kv ∈ (encode corpus).encodeGIS e.features e.label,
      kv.1 < (corpusMapping corpus).length + 1 := by
  intro kv hkv
  rw [encodeGIS_own_eq he hne] at hkv
  rcases List.mem_append.1 hkv with h | h
  · rcases encode_keys_mem _ _ _ kv h with ⟨k, hk⟩
    exact Nat.lt_succ_of_lt (snd_lt_of_mem_goodMap (goodMap_corpusMapping corpus) hk)
  · simp only [List.mem_singleton] at h
    rw [h]
    exact Nat.lt_succ_self _

/-- The empirical count of a nonempty corpus is at least 1 at every
in-range index: every vocabulary key is fired by the entry that
registered it, and the correction entry is fired once per example. -/
theorem empiricalCount_pos (corpus : featureSet) (hne : corpus ≠ [])
    (i : ℕ) (hi : i < (corpusMapping corpus).length + 1) :
    1 ≤ (empiricalCount corpus (encode corpus)).getD i 0 := by
  have good := goodMap_corpusMapping corpus
  have hkeys : ∀ e ∈ corpus, ∀ kv ∈ (encode corpus).encodeGIS e.features e.label,
      kv.1 < (encode corpus).mapping.length + 1 :=
    fun e he kv hkv => encodeGIS_own_keys_lt he hne kv hkv
  rw [empiricalCount_getD corpus (encode corpus) hkeys i hi]
  rcases Nat.lt_succ_iff_lt_or_eq.1 hi with hlt | heq
  · -- a vocabulary index: fired by the entry that registered its key
    rcases exists_key_of_lt_goodMap good hlt with ⟨k, hk⟩
    rcases corpusMapping_origin corpus (k, i) hk with ⟨e, he, j, hkey⟩
    have hfind : mapLookup (joinDash (featureOrder j) (e.features j) e.label)
        (encode corpus).mapping = some i := by
      show mapLookup (entryKey e j) (corpusMapping corpus) = some i
      exact mapLookup_of_mem_nodup good.2 (by rwa [← hkey])
    have hmem : ((i, 1) : ℕ × ℤ) ∈ (encode corpus).encodeGIS e.features e.label := by
      rw [encodeGIS_own_eq he hne]
      exact List.mem_append_left _ (mem_encode_of_lookup hfind)
    have h1 : (1 : ℤ) ≤ contrib ((encode corpus).encodeGIS e.features e.label) i :=
      le_contrib_of_mem hmem (encodeGIS_own_values_nonneg he hne)
    refine le_trans h1 (List.single_le_sum ?_ _ (List.mem_map.2 ⟨e, he, rfl⟩))
    intro x hx
    rcases List.mem_map.1 hx with ⟨e', he', hx'⟩
    rw [← hx']
    exact contrib_nonneg i (encodeGIS_own_values_nonneg he' hne)
  · -- the correction index: fired once by every example
    rcases List.exists_mem_of_ne_nil corpus hne with ⟨e0, he0⟩
    have hcontrib : ∀ e ∈ corpus,
        contrib ((encode corpus).encodeGIS e.features e.label) i = 1 := by
      intro e he
      rw [encodeGIS_own_eq he hne, contrib_append]
      have hz : contrib ((encode corpus).encode e.features e.label) i = 0 := by
        refine contrib_eq_zero ?_
        intro kv hkv
        rcases encode_keys_mem _ _ _ kv hkv with ⟨k, hk⟩
        have := snd_lt_of_mem_goodMap good hk
        omega
      rw [hz, heq]
      simp [contrib]
    have h1 : (1 : ℤ)
        = contrib ((encode corpus).encodeGIS e0.features e0.label) i :=
      (hcontrib e0 he0).symm
    rw [h1]
    refine List.single_le_sum ?_ _ (List.mem_map.2 ⟨e0, he0, rfl⟩)
    intro x hx
    rcases List.mem_map.1 hx with ⟨e', he', hx'⟩
    rw [← hx', hcontrib e' he']
    norm_num

/-! The GIS loop on the empty corpus. -/

/-- On the empty corpus the single (correction) index is unattested and
one GIS round maps the weight vector `[-Inf]` to itself: the update is
`-Inf + (1/1) * (log2 0 - log2 (0+1)) = -Inf + -Inf`. -/
theorem gisStep_nil_fixed (L : LogOps) :
    gisStep L (encode []) [] (unattestedList (empiricalCount [] (encode [])))
      ((empiricalCount [] (encode [])).map fun z => F.log2 L (F.fin (z : ℚ)))
      (F.fin (1 / ((encode ([] : featureSet)).cardinality : ℚ))) [F.ninf]
      = [F.ninf] := by
  simp only [gisStep]
  have est0 : estCount L { encode [] with weights := [F.ninf] } [] (encode [])
      = [F.fin 0] := rfl
  have est1 : (unattestedList (empiricalCount [] (encode []))).foldl
      (fun e idx => e.set idx (F.add (e.getD idx F.nan) (F.fin 1))) [F.fin 0]
      = [F.fin 1] := by
    show [F.fin ((0 : ℚ) + 1)] = [F.fin 1]
    norm_num
  rw [est0, est1]
  have est2 : ([F.fin 1]).map (F.log2 L) = [F.fin (L.log2q 1)] := by
    simp only [List.map_cons, List.map_nil]
    rw [F.log2, if_pos]
    norm_num
  rw [est2]
  have empf : ((empiricalCount [] (encode [])).map fun z => F.log2 L (F.fin (z : ℚ)))
      = [F.ninf] := rfl
  rw [empf]
  have est3 : (List.zipWith F.sub [F.ninf] [F.fin (L.log2q 1)]).map
      (F.mul (F.fin (1 / ((encode ([] : featureSet)).cardinality : ℚ))))
      = [F.ninf] := by
    show [F.mul (F.fin (1 / ((encode ([] : featureSet)).cardinality : ℚ))) F.ninf]
      = [F.ninf]
    have hc : ((encode ([] : featureSet)).cardinality : ℚ) = 1 := by norm_num [encode,
      newMaxentClassifier, corpusMapping, prefixCount]
    rw [hc]
    rw [F.mul, if_pos]
    norm_num
  rw [est3]
  rfl

/-- Weights after any number of GIS rounds on the empty corpus. -/
theorem gisWeights_nil (L : LogOps) (r : ℕ) : gisWeights L [] r = [F.ninf] := by
  simp only [gisWeights]
  have hinit : initWeights ((encode ([] : featureSet)).mapping.length + 1)
      (unattestedList (empiricalCount [] (encode []))) = [F.ninf] := rfl
  rw [hinit]
  exact Function.iterate_fixed (gisStep_nil_fixed L) r

/-! The initial weight vector. -/

/-- Membership in the unattested list. -/
theorem mem_unattestedList {empCount : List ℤ} {i : ℕ} :
    i ∈ unattestedList empCount ↔ i < empCount.length ∧ empCount.getD i 0 = 0 := by
  simp [unattestedList, List.mem_filter]

/-- Reading the initial weight vector: `-Inf` at unattested indices,
zero elsewhere. -/
theorem initWeights_getD (rows : ℕ) (unattested : List ℕ) (idx : ℕ)
    (hidx : idx < rows) :
    (initWeights rows unattested).getD idx F.nan
      = if idx ∈ unattested then F.ninf else F.fin 0 := by
  have main : ∀ (un : List ℕ) (w : List F), idx < w.length →
      (un.foldl (fun w j => w.set j F.ninf) w).getD idx F.nan
        = if idx ∈ un then F.ninf else w.getD idx F.nan := by
    intro un
    induction un with
    | nil => intro w _; simp
    | cons j un ih =>
      intro w hw
      rw [List.foldl_cons, ih _ (by simpa using hw)]
      by_cases hj : idx ∈ un
      · simp [hj, List.mem_cons]
      · rw [if_neg hj]
        by_cases hji : j = idx
        · subst hji
          rw [getD_set_self w hw]
          simp [List.mem_cons]
        · have hnm : idx ∉ j :: un := by
            intro hmem
            rcases List.mem_cons.1 hmem with h | h
            · exact hji h.symm
            · exact hj h
          rw [getD_set_ne w hji, if_neg hnm]
  rw [initWeights, main _ _ (by simpa using hidx)]
  simp [List.getD_eq_getElem?_getD, List.getElem?_replicate, hidx]

/-! Claim theorems about the GIS trainer. -/

theorem extracterFromData_weights (L : LogOps) (corpus : featureSet) :
    (extracterFromData L corpus).weights = gisWeights L corpus 100 := by
  simp only [extracterFromData]

/-- C1: in the classifier returned by `extracterFromData`, every
vocabulary index with zero empirical count has weight `-Inf` after
every GIS round (round 0 is the initialisation), and in particular in
the returned classifier. For a nonempty corpus no index has zero count
(each mapping key is fired by the entry that registered it, and the
correction feature fires once per example), so the invariant is
vacuous there; on the empty corpus the single correction index stays
`-Inf` through every round. -/
theorem gis_unattested_weights_ninf (L : LogOps) (corpus : featureSet) (idx : ℕ)
    (hidx : idx < (encode corpus).mapping.length + 1)
    (h0 : (empiricalCount corpus (encode corpus)).getD idx 0 = 0) :
    (∀ r : ℕ, (gisWeights L corpus r).getD idx F.nan = F.ninf) ∧
      (extracterFromData L corpus).weights.getD idx F.nan = F.ninf := by
  cases corpus with
  | nil =>
    have hlen : (encode ([] : featureSet)).mapping.length = 0 := rfl
    have hidx0 : idx = 0 := by omega
    subst hidx0
    refine ⟨fun r => ?_, ?_⟩
    · rw [gisWeights_nil]; rfl
    · rw [extracterFromData_weights, gisWeights_nil]; rfl
  | cons e rest =>
    exfalso
    have hidx' : idx < (corpusMapping (e :: rest)).length + 1 := by
      rw [← encode_mapping_eq]
      exact hidx
    have hpos := empiricalCount_pos (e :: rest) (List.cons_ne_nil e rest) idx hidx'
    omega

/-- Witness for C1 on the empty corpus at the correction index. -/
theorem gis_unattested_weights_ninf_witness :
    (0 < (encode ([] : featureSet)).mapping.length + 1
        ∧ (empiricalCount [] (encode [])).getD 0 0 = 0)
      ∧ (gisWeights LQlin [] 100).getD 0 F.nan = F.ninf
      ∧ (extracterFromData LQlin []).weights.getD 0 F.nan = F.ninf :=
  ⟨⟨by decide, by decide⟩,
    (gis_unattested_weights_ninf LQlin [] 0 (by decide) (by decide)).1 100,
    (gis_unattested_weights_ninf LQlin [] 0 (by decide) (by decide)).2⟩

/-- C2 (amended): before the first GIS round the weight of every
unattested index is `-Inf` and the weight of every attested index is 0
(not `log2` of its empirical count: the logged counts only enter the
round updates). -/
theorem gis_initial_weights (L : LogOps) (corpus : featureSet) (idx : ℕ)
    (hidx : idx < (encode corpus).mapping.length + 1) :
    ((empiricalCount corpus (encode corpus)).getD idx 0 = 0 →
      (gisWeights L corpus 0).getD idx F.nan = F.ninf) ∧
    ((empiricalCount corpus (encode corpus)).getD idx 0 ≠ 0 →
      (gisWeights L corpus 0).getD idx F.nan = F.fin 0) := by
  have hrows : (empiricalCount corpus (encode corpus)).length
      = (encode corpus).mapping.length + 1 := empiricalCount_length corpus (encode corpus)
  have h : (gisWeights L corpus 0).getD idx F.nan
      = if idx ∈ unattestedList (empiricalCount corpus (encode corpus))
        then F.ninf else F.fin 0 := by
    simp only [gisWeights, Function.iterate_zero, id]
    exact initWeights_getD _ _ idx hidx
  constructor
  · intro h0
    rw [h, if_pos (mem_unattestedList.2 ⟨by omega, h0⟩)]
  · intro h0
    rw [h, if_neg (fun hmem => h0 (mem_unattestedList.1 hmem).2)]

/-- A two-copy corpus of a single entry: empirical counts are 2. -/
def cex2 : featureSet :=
  [{ label := "X".toList, features := fun _ => ['a'] },
   { label := "X".toList, features := fun _ => ['a'] }]

/-- Counterexample to C2 as stated: at index 0 of `cex2` the empirical
count is 2 (attested), but the initial weight is 0, not
`log2 2 = 1`. -/
theorem gis_initial_weights_counterexample :
    (empiricalCount cex2 (encode cex2)).getD 0 0 ≠ 0
      ∧ (gisWeights LQlin cex2 0).getD 0 F.nan
        ≠ F.log2 LQlin (F.fin (((empiricalCount cex2 (encode cex2)).getD 0 0 : ℤ) : ℚ))
      ∧ (gisWeights LQlin cex2 0).getD 0 F.nan = F.fin 0 := by
  refine ⟨by decide, ?_, by decide⟩
  decide

/-- Witness for the amended C2: an attested index initialised to 0 and
an unattested index initialised to `-Inf`. -/
theorem gis_initial_weights_witness :
    ((empiricalCount cex2 (encode cex2)).getD 0 0 ≠ 0
      ∧ (gisWeights LQlin cex2 0).getD 0 F.nan = F.fin 0)
    ∧ ((empiricalCount [] (encode [])).getD 0 0 = 0
      ∧ (gisWeights LQlin [] 0).getD 0 F.nan = F.ninf) :=
  ⟨⟨by decide, (gis_initial_weights LQlin cex2 0 (by decide)).2 (by decide)⟩,
    ⟨by decide, (gis_initial_weights LQlin [] 0 (by decide)).1 (by decide)⟩⟩

/-- C5: the GIS encoding is the plain encoding (one indicator of value
1 per mapped joint key) plus a correction entry at index
`len(mapping)` of value `cardinality - fired`, and its values sum to
exactly the classifier's cardinality. -/
theorem encodeGIS_sum_cardinality (m : binaryMaxentClassifier)
    (features : Fin 17 → Str) (label : Str) :
    ((m.encodeGIS features label).map Prod.snd).sum = m.cardinality
      ∧ (∀ kv ∈ m.encode features label, kv.2 = 1)
      ∧ m.encodeGIS features label
        = m.encode features label
          ++ [(m.mapping.length,
            m.cardinality - ((m.encode features label).map Prod.snd).sum)] := by
  refine ⟨?_, encode_values_one m features label, rfl⟩
  rw [binaryMaxentClassifier.encodeGIS]
  rw [List.map_append, List.sum_append]
  simp

/-! The reusable key-building buffer (source: method `byteJoin`). -/

/-- Go `copy(buf[off:], src)` when the copy fits: splice `src` over the
buffer at offset `off`. -/
def copyAt (buf : Str) (off : ℕ) (src : Str) : Str :=
  buf.take off ++ src ++ buf.drop (off + src.length)

/-- Source: method `byteJoin` — grow the scratch buffer to
`len(a)+len(b)+len(c)+2` zero bytes if too small, copy `a`, the
joiner, `b`, the joiner, `c` into it, and return the string of its
first `n` bytes together with the buffer for reuse. -/
def byteJoin (buf : Str) (a b c : Str) (rjc : Char) : Str × Str :=
  let n := a.length + b.length + c.length + 2
  let buf0 := if buf.length < n then List.replicate n (Char.ofNat 0) else buf
  let buf1 := copyAt buf0 0 a
  let buf2 := copyAt buf1 a.length [rjc]
  let buf3 := copyAt buf2 (a.length + 1) b
  let buf4 := copyAt buf3 (a.length + b.length + 1) [rjc]
  let buf5 := copyAt buf4 (a.length + b.length + 2) c
  (buf5.take n, buf5)

/-- Splicing at the end of a known prefix replaces the suffix head. -/
theorem copyAt_append (P Q s : Str) :
    copyAt (P ++ Q) P.length s = P ++ s ++ Q.drop s.length := by
  rw [copyAt, List.take_left]
  have h : (P ++ Q).drop (P.length + s.length) = Q.drop s.length := by
    rw [← List.drop_drop, List.drop_left]
  rw [h]

/-- The produced key is `a-b-c` whatever the incoming buffer holds. -/
theorem byteJoin_spec (buf a b c : Str) (rjc : Char) :
    (byteJoin buf a b c rjc).1 = a ++ rjc :: b ++ rjc :: c := by
  simp only [byteJoin]
  set n := a.length + b.length + c.length + 2 with hn
  set buf0 := if buf.length < n then List.replicate n (Char.ofNat 0) else buf with hbuf0
  have h1 : copyAt buf0 0 a = a ++ buf0.drop a.length := by
    have := copyAt_append [] buf0 a
    simpa using this
  have h2 : copyAt (a ++ buf0.drop a.length) a.length [rjc]
      = (a ++ [rjc]) ++ (buf0.drop a.length).drop 1 := by
    have := copyAt_append a (buf0.drop a.length) [rjc]
    simpa [List.append_assoc] using this
  have h3 : copyAt ((a ++ [rjc]) ++ (buf0.drop a.length).drop 1) (a.length + 1) b
      = ((a ++ [rjc]) ++ b) ++ ((buf0.drop a.length).drop 1).drop b.length := by
    have := copyAt_append (a ++ [rjc]) ((buf0.drop a.length).drop 1) b
    simpa [List.append_assoc] using this
  have h4 : copyAt (((a ++ [rjc]) ++ b) ++ ((buf0.drop a.length).drop 1).drop b.length)
      (a.length + b.length + 1) [rjc]
      = (((a ++ [rjc]) ++ b) ++ [rjc])
        ++ (((buf0.drop a.length).drop 1).drop b.length).drop 1 := by
    have := copyAt_append ((a ++ [rjc]) ++ b)
      (((buf0.drop a.length).drop 1).drop b.length) [rjc]
    have hlen : ((a ++ [rjc]) ++ b).length = a.length + b.length + 1 := by
      simp
      omega
    rw [hlen] at this
    simpa [List.append_assoc] using this
  have h5 : copyAt ((((a ++ [rjc]) ++ b) ++ [rjc])
        ++ (((buf0.drop a.length).drop 1).drop b.length).drop 1)
      (a.length + b.length + 2) c
      = ((((a ++ [rjc]) ++ b) ++ [rjc]) ++ c)
        ++ ((((buf0.drop a.length).drop 1).drop b.length).drop 1).drop c.length := by
    have := copyAt_append (((a ++ [rjc]) ++ b) ++ [rjc])
      ((((buf0.drop a.length).drop 1).drop b.length).drop 1) c
    have hlen : (((a ++ [rjc]) ++ b) ++ [rjc]).length = a.length + b.length + 2 := by
      simp
      omega
    rw [hlen] at this
    simpa [List.append_assoc] using this
  rw [h1, h2, h3, h4, h5]
  have htake : ((((a ++ [rjc]) ++ b) ++ [rjc]) ++ c).length = n := by
    simp [hn]
    omega
  rw [List.take_left' htake]
  simp

/-- C7: determinism of training. The only mutable state shared between
key constructions is the classifier's scratch buffer, and `byteJoin`'s
result does not depend on the incoming buffer contents; in the
pure model (fixed accumulation order) two runs of `extracterFromData`
on the same corpus produce identical weight vectors. -/
theorem extracter_deterministic :
    (∀ (buf1 buf2 a b c : Str) (rjc : Char),
      (byteJoin buf1 a b c rjc).1 = (byteJoin buf2 a b c rjc).1)
    ∧ ∀ (L : LogOps) (c1 c2 : featureSet), c1 = c2 →
        (extracterFromData L c1).weights = (extracterFromData L c2).weights := by
  constructor
  · intro buf1 buf2 a b c rjc
    rw [byteJoin_spec, byteJoin_spec]
  · intro L c1 c2 h
    rw [h]

/-- Witness for C7 at a concrete buffer pair and corpus. -/
theorem extracter_deterministic_witness :
    (byteJoin ['z', 'q'] "ab".toList "c".toList "L".toList '-').1
      = (byteJoin [] "ab".toList "c".toList "L".toList '-').1
    ∧ (extracterFromData LQlin []).weights = (extracterFromData LQlin []).weights :=
  ⟨extracter_deterministic.1 ['z', 'q'] [] "ab".toList "c".toList "L".toList '-',
    extracter_deterministic.2 LQlin [] [] rfl⟩

/-! The BIO chunker (source: `entityExtracter.chunk`, `coalesce`,
`parseEntities`). This part of the embedding uses Lean `String` for Go
strings, since only literal comparison and splitting occur. -/

/-- A pipeline token: text, POS tag and NER label (source:
`type Token struct`). -/
structure Token where
  Text : String
  Tag : String
  Label : String
deriving DecidableEq, Repr

instance : Inhabited Token := ⟨⟨"", "", ""⟩⟩

/-- An extracted entity: joined text and resolved label (source: the
`Entity` literal built in `coalesce`). -/
structure Entity where
  Text : String
  Label : String
deriving DecidableEq, Repr

/-- Go `strings.Split(s, "-")` on char lists: split at every dash. -/
def splitDashAux : List Char → List Char → List (List Char)
  | [], acc => [acc.reverse]
  | c :: rest, acc =>
    if c = '-' then acc.reverse :: splitDashAux rest []
    else splitDashAux rest (c :: acc)

/-- Go `strings.Split(s, "-")`. -/
def splitDash (s : String) : List String :=
  (splitDashAux s.data []).map List.asString

/-- Go `strings.Replace(s, "B", "I", 1)`: replace the first "B". -/
def replaceBIAux : List Char → List Char
  | [] => []
  | c :: rest => if c = 'B' then 'I' :: rest else c :: replaceBIAux rest

/-- Go `strings.Replace(s, "B", "I", 1)`. -/
def replaceBI (s : String) : String := (replaceBIAux s.data).asString

/-- Source: func `parseEntities` — "PERSON" when the raw label list is
exactly 2 labels one of which is literally "B-PERSON"; otherwise the
second dash-separated component of the first label. The Go code
indexes `Split(ents[0], "-")[1]` unconditionally (panicking on a
dash-free label); the model returns "" there. -/
def parseEntities (ents : List String) : String :=
  if "B-PERSON" ∈ ents ∧ ents.length = 2 then "PERSON"
  else (splitDash (ents.headD "")).getD 1 ""

/-- Source: func `coalesce` — join the span texts with single spaces
and resolve the label. -/
def coalesce (parts : List Token) : Entity :=
  { Label := parseEntities (parts.map Token.Label)
    Text := " ".intercalate (parts.map Token.Text) }

/-- The chunker's loop state: emitted entities, the expected
continuation label (`end`), the open span and its length counter. -/
structure ChunkState where
  entities : List Entity
  endLabel : String
  parts : List Token
  idx : ℕ

/-- The continue/open condition of `chunk` (first branch). -/
def openCond (s : ChunkState) (tok : Token) : Prop :=
  (tok.Label ≠ "O" ∧ tok.Label ≠ s.endLabel)
    ∨ (0 < s.idx ∧ tok.Tag = (s.parts.getD (s.idx - 1) default).Tag)
    ∨ (0 < s.idx ∧ tok.Tag = "CD" ∧ (s.parts.getD (s.idx - 1) default).Label ≠ "O")

/-- The close/emit condition of `chunk` (second branch). -/
def closeCond (s : ChunkState) (tok : Token) : Prop :=
  (tok.Label = "O" ∧ s.endLabel ≠ "") ∨ tok.Label = s.endLabel

instance (s : ChunkState) (tok : Token) : Decidable (openCond s tok) := by
  unfold openCond
  infer_instance

instance (s : ChunkState) (tok : Token) : Decidable (closeCond s tok) := by
  unfold closeCond
  infer_instance

/-- One iteration of the chunker loop (source: the body of the `for`
loop in `entityExtracter.chunk`): a token is silently dropped when it
neither continues an open span nor closes one. -/
def chunkStep (s : ChunkState) (tok : Token) : ChunkState :=
  if openCond s tok then
    { s with
      endLabel := replaceBI tok.Label
      parts := s.parts ++ [tok]
      idx := s.idx + 1 }
  else if closeCond s tok then
    let parts := if tok.Label ≠ "O" then s.parts ++ [tok] else s.parts
    { entities := s.entities ++ [coalesce parts]
      endLabel := ""
      parts := []
      idx := 0 }
  else s

/-- The chunker state after consuming all tokens. -/
def chunkState (tokens : List Token) : ChunkState :=
  tokens.foldl chunkStep { entities := [], endLabel := "", parts := [], idx := 0 }

/-- Source: `entityExtracter.chunk` — the emitted entities. -/
def chunk (tokens : List Token) : List Entity :=
  (chunkState tokens).entities

/-- A non-closing chunker step emits nothing. -/
theorem chunkStep_entities_of_not_close (s : ChunkState) (t : Token)
    (h : ¬(¬ openCond s t ∧ closeCond s t)) :
    (chunkStep s t).entities = s.entities := by
  rw [chunkStep]
  by_cases ho : openCond s t
  · rw [if_pos ho]
  · rw [if_neg ho, if_neg (fun hc => h ⟨ho, hc⟩)]

/-- C10: a span still open when the tokens end is never emitted — a
trailing token that does not take the close branch leaves the emitted
entities unchanged, and in particular a single token with a
non-"O" label (e.g. "B-PERSON") yields no entities at all. -/
theorem chunk_open_span_not_emitted :
    (∀ tok : Token, tok.Label ≠ "O" → tok.Label ≠ "" → chunk [tok] = [])
    ∧ ∀ (toks : List Token) (t : Token),
        ¬(¬ openCond (chunkState toks) t ∧ closeCond (chunkState toks) t) →
        chunk (toks ++ [t]) = chunk toks := by
  constructor
  · intro tok h1 h2
    have ho : openCond { entities := [], endLabel := "", parts := [], idx := 0 } tok :=
      Or.inl ⟨h1, h2⟩
    show (chunkStep { entities := [], endLabel := "", parts := [], idx := 0 } tok).entities
      = []
    rw [chunkStep, if_pos ho]
  · intro toks t h
    show (chunkState (toks ++ [t])).entities = _
    rw [show chunkState (toks ++ [t]) = chunkStep (chunkState toks) t from by
      simp [chunkState, List.foldl_append]]
    exact chunkStep_entities_of_not_close _ _ h

/-- Witness for C10: a single "B-PERSON" token produces no entity. -/
theorem chunk_open_span_not_emitted_witness :
    chunk [{ Text := "John", Tag := "NNP", Label := "B-PERSON" }] = []
      ∧ chunk ([] ++ [{ Text := "John", Tag := "NNP", Label := "B-PERSON" }]) = chunk [] :=
  ⟨chunk_open_span_not_emitted.1 { Text := "John", Tag := "NNP", Label := "B-PERSON" }
      (by decide) (by decide),
    chunk_open_span_not_emitted.2 [] { Text := "John", Tag := "NNP", Label := "B-PERSON" }
      (by decide)⟩

/-- Counterexample to C9 as stated: the chunker closes the span
[B-GPE, B-PERSON] (whose leading label is not PERSON-beginning) with
label "PERSON", because the source tests `"B-PERSON" ∈ ents` in either
position, while the claim's rule would give the first label's category
suffix "GPE". -/
theorem coalesce_person_precedence_counterexample :
    parseEntities ["B-GPE", "B-PERSON"] = "PERSON"
      ∧ (splitDash "B-GPE").getD 1 "" = "GPE"
      ∧ chunk [{ Text := "Bank", Tag := "NNP", Label := "B-GPE" },
          { Text := "Smith", Tag := "NNP", Label := "B-PERSON" },
          { Text := ".", Tag := ".", Label := "O" }]
        = [{ Text := "Bank Smith", Label := "PERSON" }]
      ∧ ("PERSON" : String) ≠ "GPE" :=
  ⟨by decide, by decide, by decide, by decide⟩

/-- C9 (amended): a closed span's Text is the token texts joined with
single spaces; its Label is "PERSON" when the raw label sequence is
exactly 2 labels one of which is literally "B-PERSON" (in either
position), and otherwise the second dash-separated component of the
first token's raw label. -/
theorem coalesce_person_precedence (parts : List Token) (hd : Token) (tl : List Token)
    (hparts : parts = hd :: tl) :
    (coalesce parts).Text = " ".intercalate (parts.map Token.Text)
      ∧ ("B-PERSON" ∈ parts.map Token.Label ∧ (parts.map Token.Label).length = 2 →
          (coalesce parts).Label = "PERSON")
      ∧ (¬("B-PERSON" ∈ parts.map Token.Label ∧ (parts.map Token.Label).length = 2) →
          (coalesce parts).Label = (splitDash hd.Label).getD 1 "") := by
  subst hparts
  refine ⟨rfl, fun h => ?_, fun h => ?_⟩
  · show parseEntities ((hd :: tl).map Token.Label) = "PERSON"
    rw [parseEntities, if_pos h]
  · show parseEntities ((hd :: tl).map Token.Label) = _
    rw [parseEntities, if_neg h]
    simp

/-- Witness for the amended C9: both label branches at concrete
spans. -/
theorem coalesce_person_precedence_witness :
    (coalesce [{ Text := "Bank", Tag := "NNP", Label := "B-GPE" },
        { Text := "Smith", Tag := "NNP", Label := "B-PERSON" }]).Label = "PERSON"
      ∧ (coalesce [{ Text := "Paris", Tag := "NNP", Label := "B-GPE" }]).Label
        = (splitDash "B-GPE").getD 1 "" :=
  ⟨(coalesce_person_precedence _ _ _ rfl).2.1 (by decide),
    (coalesce_person_precedence
      [{ Text := "Paris", Tag := "NNP", Label := "B-GPE" }] _ _ rfl).2.2 (by decide)⟩

/-! The NER feature extractor (source: func `extract` and its string
helpers). Slots are a dense 17-element vector in `featureOrder` order. -/

/-- Source: `const NoneFeat = "None"`. -/
def NoneFeat : String := "None"

/-- Source: func `isBasic` — "True"/"False" lexicon membership flag.
The English word list itself (`enWordList`) is data not present in the
sources; it is taken as a parameter. -/
def isBasic (wordList : List String) (word : String) : String :=
  if word ∈ wordList then "True" else "False"

/-- Go `strings.ToLower` (ASCII case mapping). -/
def lowerStr (s : String) : String := (s.data.map Char.toLower).asString

/-- Source: func `nSuffix` — the lower-cased last `length` bytes. -/
def nSuffix (word : String) (length : ℕ) : String :=
  lowerStr (word.data.drop (word.data.length - min word.data.length length)).asString

/-- Source: func `nPrefix` — the lower-cased first `length` bytes. -/
def nPref (word : String) (length : ℕ) : String :=
  lowerStr (word.data.take (min word.data.length length)).asString

/-- ASCII word character, RE2's `\w`. -/
def wordChar (c : Char) : Bool := c.isAlphanum || c = '_'

/-- Source: func `isNumeric` — `strconv.ParseFloat` succeeds. Modelled
for plain decimal forms: optional sign, then a nonempty digit string
optionally containing one dot (hex/exponent/Inf forms are not used by
the corpus text this guards). -/
def isNumeric (s : String) : Bool :=
  let body := fun (l : List Char) =>
    decide (l ≠ []) && decide (l ≠ ['.'])
      && l.all (fun c => c.isDigit || c = '.')
      && decide ((l.filter (fun c => c = '.')).length ≤ 1)
  match s.data with
  | '+' :: rest => body rest
  | '-' :: rest => body rest
  | l => body l

/-- Go `unicode.ToTitle`-based `strings.Title`: uppercase every letter
that follows a separator (ASCII approximation). -/
def titleAux : List Char → Bool → List Char
  | [], _ => []
  | c :: rest, prevSep => (if prevSep then c.toUpper else c) :: titleAux rest (!wordChar c)

/-- Go `strings.Title`. -/
def titleStr (s : String) : String := (titleAux s.data true).asString

/-- Source: func `shape` — orthographic shape class. The regex
`\W+$` (unanchored) holds iff the last character is a non-word
character; `\w+$` iff it is a word character. -/
def shape (word : String) : String :=
  if isNumeric word then "number"
  else if (match word.data.getLast? with
    | some c => !wordChar c
    | none => false) then "punct"
  else if (match word.data.getLast? with
    | some c => wordChar c
    | none => false) then
    if lowerStr word = word then "downcase"
    else if titleStr word = word then "upcase"
    else "mixedcase"
  else "other"

/-- Source: func `extract` — the 17-slot NER feature tuple. Mirrors
the Go assignment sequence exactly: in particular `feats[2]` first
receives the `isBasic` lexicon flag and is later unconditionally
overwritten by the next-POS value (or "None" for the last token), and
`feats[1]` (the "en-wordlist" slot) is never assigned. Out-of-range
context indexing (a Go panic) is modelled by the default token. -/
def extract (wordList : List String) (i : ℕ) (ctx : List Token)
    (history : List String) : List String :=
  let word := (ctx.getD i default).Text
  let f0 := ((((((((List.replicate 17 "").set 0 "True").set 13 word).set 4
    (ctx.getD i default).Tag).set 2 (isBasic wordList word)).set 15
    (lowerStr word)).set 12 (nSuffix word 3)).set 6 (nPref word 3)).set 10
    (shape word) |>.set 16 (toString word.utf8ByteSize)
  let step1 :=
    if i = 0 then
      ((((f0.set 8 NoneFeat).set 9 NoneFeat).set 7 NoneFeat), NoneFeat)
    else if i = 1 then
      (((f0.set 9 (lowerStr (ctx.getD (i - 1) default).Text)).set 7
        (ctx.getD (i - 1) default).Tag).set 8 (history.getD (i - 1) ""), NoneFeat)
    else
      (((f0.set 9 (lowerStr (ctx.getD (i - 1) default).Text)).set 7
        (ctx.getD (i - 1) default).Tag).set 8 (history.getD (i - 1) ""),
        shape (ctx.getD (i - 1) default).Text)
  let f1 := step1.1
  let prevShape := step1.2
  let f2 :=
    if i = ctx.length - 1 then (f1.set 3 NoneFeat).set 2 NoneFeat
    else (f1.set 3 (lowerStr (ctx.getD (i + 1) default).Text)).set 2
      (lowerStr (ctx.getD (i + 1) default).Tag)
  let f3 := f2.set 14 ("+".intercalate [f2.getD 15 "", f2.getD 2 ""])
  let f4 := f3.set 5 ("+".intercalate [f3.getD 4 "", f3.getD 8 ""])
  f4.set 11 ("+".intercalate [prevShape, f4.getD 8 ""])

/-- C3 (code bug): the lexicon-membership flag never reaches the
returned tuple. `isBasic` is computed into slot 2 — the "nextpos"
slot — and unconditionally overwritten by the next-POS assignment, so
the result does not depend on the word list at all; the "en-wordlist"
slot (index 1) is always the empty string, and for a word outside the
lexicon no slot carries the required "False". -/
theorem extract_en_wordlist_bug :
    (∀ wordList : List String,
      extract wordList 0 [{ Text := "qqq", Tag := "NN", Label := "O" }] []
        = extract [] 0 [{ Text := "qqq", Tag := "NN", Label := "O" }] [])
      ∧ (extract [] 0 [{ Text := "qqq", Tag := "NN", Label := "O" }] []).getD 1 "" = ""
      ∧ (extract [] 0 [{ Text := "qqq", Tag := "NN", Label := "O" }] []).getD 2 ""
        = NoneFeat
      ∧ isBasic [] "qqq" = "False"
      ∧ "False" ∉ extract [] 0 [{ Text := "qqq", Tag := "NN", Label := "O" }] []
      ∧ (extract [] 0 [{ Text := "qqq", Tag := "NN", Label := "O" },
          { Text := "runs", Tag := "VBZ", Label := "O" }] []).getD 2 "" = "vbz" :=
  ⟨fun _ => rfl, by decide, by decide, by decide, by decide, by decide⟩

/-! Exact-real model of the log-space probability arithmetic
(`addLogs`, `sumLogs`, `newMappedProbDist`, `prob`), with the genuine
base-2 logarithm and exponential so the exact identities of the
specification are provable. -/

/-- IEEE doubles over exact reals: NaN, +Inf, -Inf or a finite real. -/
inductive FR where
  | nan : FR
  | pinf : FR
  | ninf : FR
  | fin : ℝ → FR

/-- IEEE addition (NaN absorbs; opposite infinities give NaN). -/
noncomputable def FR.add : FR → FR → FR
  | nan, _ => nan
  | _, nan => nan
  | pinf, ninf => nan
  | ninf, pinf => nan
  | pinf, _ => pinf
  | _, pinf => pinf
  | ninf, _ => ninf
  | _, ninf => ninf
  | fin a, fin b => fin (a + b)

/-- IEEE negation. -/
noncomputable def FR.neg : FR → FR
  | nan => nan
  | pinf => ninf
  | ninf => pinf
  | fin a => fin (-a)

/-- IEEE subtraction, as addition of the negation. -/
noncomputable def FR.sub (x y : FR) : FR := FR.add x (FR.neg y)

/-- IEEE strict `<` (false whenever NaN is involved). -/
def FR.flt : FR → FR → Prop
  | nan, _ => False
  | _, nan => False
  | ninf, ninf => False
  | ninf, _ => True
  | _, ninf => False
  | pinf, _ => False
  | fin _, pinf => True
  | fin a, fin b => a < b

/-- Go `math.Min`: NaN-propagating minimum. -/
noncomputable def FR.fmin : FR → FR → FR
  | nan, _ => nan
  | _, nan => nan
  | ninf, _ => ninf
  | _, ninf => ninf
  | pinf, b => b
  | a, pinf => a
  | fin a, fin b => fin (min a b)

open Classical in
/-- Go `math.Log2` with its exact value on positive finite inputs. -/
noncomputable def log2R : FR → FR
  | FR.nan => FR.nan
  | FR.pinf => FR.pinf
  | FR.ninf => FR.nan
  | FR.fin x => if 0 < x then FR.fin (Real.logb 2 x) else if x = 0 then FR.ninf else FR.nan

/-- Go `math.Pow(2, ·)` with its exact value on finite inputs. -/
noncomputable def pow2R : FR → FR
  | FR.nan => FR.nan
  | FR.pinf => FR.pinf
  | FR.ninf => FR.fin 0
  | FR.fin x => FR.fin ((2 : ℝ) ^ x)

/-- The exact value of the global `maxLogDiff = math.Log2(1e-30)`. -/
noncomputable def maxLogDiffR : ℝ := Real.logb 2 (1 / 10 ^ 30)

open Classical in
/-- Source: func `addLogs`, over exact reals. -/
noncomputable def addLogsR (x y : FR) : FR :=
  if FR.flt x (FR.add y (FR.fin maxLogDiffR)) then y
  else if FR.flt y (FR.add x (FR.fin maxLogDiffR)) then x
  else
    let base := FR.fmin x y
    FR.add base (log2R (FR.add (pow2R (FR.sub x base)) (pow2R (FR.sub y base))))

/-- Source: func `sumLogs`, over exact reals. -/
noncomputable def sumLogsR (logs : List FR) : FR :=
  match logs with
  | [] => FR.ninf
  | x :: rest => rest.foldl addLogsR x

/-- Source: `type probEnc struct`, over exact reals. -/
structure probEncR where
  prob : FR
  vec : List (ℕ × ℤ)

/-- IEEE test `x <= math.Inf(-1)`: true exactly for `-Inf`. -/
def leNegInfR : FR → Bool
  | FR.ninf => true
  | _ => false

/-- Go `1.0 / float64(n)` (`+Inf` when `n = 0`). -/
noncomputable def goInvR (n : ℕ) : FR := if n = 0 then FR.pinf else FR.fin (1 / (n : ℝ))

/-- Go map lookup in the label-keyed distribution. -/
def plookup (k : String) : List (String × probEncR) → Option probEncR
  | [] => none
  | p :: rest => if p.1 = k then some p.2 else plookup k rest

/-- Source: func `newMappedProbDist` with `normalize`, over exact
reals. -/
noncomputable def newMappedProbDistR (dict : List (String × probEncR))
    (normalize : Bool) : List (String × probEncR) :=
  if normalize then
    let values := dict.map fun kv => kv.2.prob
    let sum := sumLogsR values
    if leNegInfR sum then
      let p := log2R (goInvR dict.length)
      dict.map fun kv => (kv.1, { kv.2 with prob := p })
    else
      dict.map fun kv => (kv.1, { kv.2 with prob := FR.sub kv.2.prob sum })
  else dict

/-- Source: method `prob` — `2^logprob` for a present label, 0.0 for a
missing one. -/
noncomputable def probR (dict : List (String × probEncR)) (label : String) : FR :=
  match plookup label dict with
  | some pe => pow2R pe.prob
  | none => FR.fin 0

/-! Specification of the log-space combination. -/

theorem maxLogDiffR_neg : maxLogDiffR < 0 := by
  rw [maxLogDiffR]
  apply Real.logb_neg <;> norm_num

/-- First early-exit branch of `addLogs`. -/
theorem addLogsR_case1 {x y : ℝ} (h : x < y + maxLogDiffR) :
    addLogsR (FR.fin x) (FR.fin y) = FR.fin y := by
  rw [addLogsR, if_pos]
  show FR.flt (FR.fin x) (FR.add (FR.fin y) (FR.fin maxLogDiffR))
  simpa [FR.add, FR.flt] using h

/-- Second early-exit branch of `addLogs`. -/
theorem addLogsR_case2 {x y : ℝ} (h1 : ¬ x < y + maxLogDiffR)
    (h2 : y < x + maxLogDiffR) :
    addLogsR (FR.fin x) (FR.fin y) = FR.fin x := by
  rw [addLogsR, if_neg, if_pos]
  · show FR.flt (FR.fin y) (FR.add (FR.fin x) (FR.fin maxLogDiffR))
    simpa [FR.add, FR.flt] using h2
  · show ¬ FR.flt (FR.fin x) (FR.add (FR.fin y) (FR.fin maxLogDiffR))
    simpa [FR.add, FR.flt] using h1

/-- Exact-combination branch of `addLogs`. -/
theorem addLogsR_case3 {x y : ℝ} (h1 : ¬ x < y + maxLogDiffR)
    (h2 : ¬ y < x + maxLogDiffR) :
    addLogsR (FR.fin x) (FR.fin y)
      = FR.fin (min x y
        + Real.logb 2 ((2 : ℝ) ^ (x - min x y) + (2 : ℝ) ^ (y - min x y))) := by
  rw [addLogsR, if_neg, if_neg]
  · have hpos : (0 : ℝ) < (2 : ℝ) ^ (x - min x y) + (2 : ℝ) ^ (y - min x y) := by
      have p1 := Real.rpow_pos_of_pos (by norm_num : (0:ℝ) < 2) (x - min x y)
      have p2 := Real.rpow_pos_of_pos (by norm_num : (0:ℝ) < 2) (y - min x y)
      linarith
    show FR.add (FR.fmin (FR.fin x) (FR.fin y)) _ = _
    simp only [FR.fmin, FR.sub, FR.neg, FR.add, pow2R, ← sub_eq_add_neg]
    rw [log2R, if_pos hpos]
  · show ¬ FR.flt (FR.fin y) (FR.add (FR.fin x) (FR.fin maxLogDiffR))
    simpa [FR.add, FR.flt] using h2
  · show ¬ FR.flt (FR.fin x) (FR.add (FR.fin y) (FR.fin maxLogDiffR))
    simpa [FR.add, FR.flt] using h1

/-- The exact combination equals `log2 (2^x + 2^y)`. -/
theorem combine_eq_log2 (x y : ℝ) :
    min x y + Real.logb 2 ((2 : ℝ) ^ (x - min x y) + (2 : ℝ) ^ (y - min x y))
      = Real.logb 2 ((2 : ℝ) ^ x + (2 : ℝ) ^ y) := by
  set b := min x y with hb
  have h2 : (0 : ℝ) < 2 := by norm_num
  have hx : (2 : ℝ) ^ (x - b) = (2 : ℝ) ^ x * (2 : ℝ) ^ (-b) := by
    rw [← Real.rpow_add h2]
    ring_nf
  have hy : (2 : ℝ) ^ (y - b) = (2 : ℝ) ^ y * (2 : ℝ) ^ (-b) := by
    rw [← Real.rpow_add h2]
    ring_nf
  have hsum : (2 : ℝ) ^ (x - b) + (2 : ℝ) ^ (y - b)
      = ((2 : ℝ) ^ x + (2 : ℝ) ^ y) * (2 : ℝ) ^ (-b) := by
    rw [hx, hy]
    ring
  have hne1 : (2 : ℝ) ^ x + (2 : ℝ) ^ y ≠ 0 := by
    have p1 := Real.rpow_pos_of_pos h2 x
    have p2 := Real.rpow_pos_of_pos h2 y
    positivity
  have hne2 : (2 : ℝ) ^ (-b) ≠ 0 := (Real.rpow_pos_of_pos h2 (-b)).ne.symm
  rw [hsum, Real.logb_mul hne1 hne2,
    Real.logb_rpow (by norm_num : (0:ℝ) < 2) (by norm_num : (2:ℝ) ≠ 1)]
  ring

/-- C4: `addLogs` on finite arguments is commutative; it equals
`log2 (2^x + 2^y)` exactly when `|x - y|` is within the configured
floor `|log2 1e-30|`; and it degrades to `max x y` when the smaller
argument is more than that floor below the larger. -/
theorem addLogs_spec (x y : ℝ) :
    addLogsR (FR.fin x) (FR.fin y) = addLogsR (FR.fin y) (FR.fin x)
      ∧ (|x - y| ≤ -maxLogDiffR →
          addLogsR (FR.fin x) (FR.fin y)
            = FR.fin (Real.logb 2 ((2 : ℝ) ^ x + (2 : ℝ) ^ y)))
      ∧ (x < y + maxLogDiffR →
          addLogsR (FR.fin x) (FR.fin y) = FR.fin (max x y))
      ∧ (y < x + maxLogDiffR →
          addLogsR (FR.fin x) (FR.fin y) = FR.fin (max x y)) := by
  have hm : maxLogDiffR < 0 := maxLogDiffR_neg
  refine ⟨?_, ?_, ?_, ?_⟩
  · by_cases h1 : x < y + maxLogDiffR
    · have h2 : ¬ y < x + maxLogDiffR := by linarith
      rw [addLogsR_case1 h1, addLogsR_case2 h2 h1]
    · by_cases h2 : y < x + maxLogDiffR
      · rw [addLogsR_case2 h1 h2, addLogsR_case1 h2]
      · rw [addLogsR_case3 h1 h2, addLogsR_case3 h2 h1, min_comm y x, add_comm
          ((2:ℝ) ^ (y - min x y)) ((2:ℝ) ^ (x - min x y))]
  · intro h
    obtain ⟨hl, hr⟩ := abs_le.1 h
    have h1 : ¬ x < y + maxLogDiffR := by intro hc; linarith
    have h2 : ¬ y < x + maxLogDiffR := by intro hc; linarith
    rw [addLogsR_case3 h1 h2, combine_eq_log2]
  · intro h
    rw [addLogsR_case1 h, max_eq_right (le_of_lt (by linarith : x < y))]
  · intro h
    have h1 : ¬ x < y + maxLogDiffR := by intro hc; linarith
    rw [addLogsR_case2 h1 h, max_eq_left (le_of_lt (by linarith : y < x))]

theorem maxLogDiffR_gt : (-200 : ℝ) < maxLogDiffR := by
  rw [maxLogDiffR]
  have h1 : ((2:ℝ) ^ ((-200 : ℝ) : ℝ)) < 1 / 10 ^ 30 := by
    rw [show ((-200 : ℝ)) = -((200:ℕ):ℝ) by norm_num, Real.rpow_neg (by norm_num),
      Real.rpow_natCast, one_div, inv_lt_inv (by positivity) (by positivity)]
    norm_num
  calc (-200 : ℝ) = Real.logb 2 ((2:ℝ) ^ ((-200 : ℝ) : ℝ)) :=
        (Real.logb_rpow (by norm_num) (by norm_num)).symm
    _ < Real.logb 2 (1 / 10 ^ 30) :=
        Real.logb_lt_logb (by norm_num) (by positivity) h1

/-- Witness for C4 at concrete inputs: equal arguments take the exact
branch; arguments 200 apart take the max branch. -/
theorem addLogs_spec_witness :
    addLogsR (FR.fin 0) (FR.fin 0)
        = FR.fin (Real.logb 2 ((2 : ℝ) ^ (0:ℝ) + (2 : ℝ) ^ (0:ℝ)))
      ∧ addLogsR (FR.fin (-200)) (FR.fin 0) = FR.fin (max (-200) 0) := by
  constructor
  · exact (addLogs_spec 0 0).2.1
      (by simpa using le_of_lt (neg_pos.2 maxLogDiffR_neg))
  · exact (addLogs_spec (-200) 0).2.2.1
      (by linarith [maxLogDiffR_gt] : (-200:ℝ) < 0 + maxLogDiffR)

/-- `plookup` commutes with rewriting every value by `f`. -/
theorem plookup_map (k : String) (f : probEncR → probEncR) :
    ∀ l : List (String × probEncR),
      plookup k (l.map fun kv => (kv.1, f kv.2)) = (plookup k l).map f
  | [] => rfl
  | p :: rest => by
    by_cases h : p.1 = k
    · simp only [List.map_cons, plookup, if_pos h]
      rfl
    · simp only [List.map_cons, plookup, if_neg h]
      exact plookup_map k f rest

/-- C6: when the summed log-mass of a nonempty label dictionary is
`-Inf`, normalization assigns every label the log-probability
`log2 (1/n)` for `n` the number of labels, and `prob` then returns the
uniform value `1/n` (never NaN). -/
theorem mappedProbDist_underflow_uniform (dict : List (String × probEncR))
    (hne : dict ≠ [])
    (hsum : sumLogsR (dict.map fun kv => kv.2.prob) = FR.ninf)
    (lbl : String) (pe : probEncR)
    (hmem : plookup lbl (newMappedProbDistR dict true) = some pe) :
    pe.prob = FR.fin (Real.logb 2 (1 / (dict.length : ℝ)))
      ∧ probR (newMappedProbDistR dict true) lbl
        = FR.fin (1 / (dict.length : ℝ)) := by
  have hn : dict.length ≠ 0 := by
    simpa [← List.length_pos_iff_ne_nil] using List.length_pos.2 hne
  have h0 : (0 : ℝ) < (dict.length : ℝ) := by
    exact_mod_cast Nat.pos_of_ne_zero hn
  have hpos : (0 : ℝ) < 1 / (dict.length : ℝ) := by positivity
  have hres : newMappedProbDistR dict true
      = dict.map fun kv =>
          (kv.1, probEncR.mk
            (FR.fin (Real.logb 2 (1 / (dict.length : ℝ)))) kv.2.vec) := by
    rw [newMappedProbDistR]
    simp only [if_true, hsum, leNegInfR, goInvR, if_neg hn, log2R, if_pos hpos]
  have hm2 : plookup lbl (newMappedProbDistR dict true)
      = (plookup lbl dict).map fun q =>
          probEncR.mk (FR.fin (Real.logb 2 (1 / (dict.length : ℝ)))) q.vec := by
    rw [hres]
    exact plookup_map lbl
      (fun q => probEncR.mk (FR.fin (Real.logb 2 (1 / (dict.length : ℝ)))) q.vec)
      dict
  rw [hm2] at hmem
  obtain ⟨pe0, _, hpe⟩ := Option.map_eq_some'.1 hmem
  constructor
  · rw [← hpe]
  · have hppe : probR (newMappedProbDistR dict true) lbl = pow2R pe.prob := by
      rw [probR, hm2, hmem]
    rw [hppe, ← hpe]
    show FR.fin ((2:ℝ) ^ Real.logb 2 (1 / (dict.length : ℝ))) = _
    rw [Real.rpow_logb (by norm_num) (by norm_num) hpos]

/-- Witness for C6: a one-label dictionary whose only log-probability is
`-Inf` normalizes to the uniform value `1`. -/
theorem mappedProbDist_underflow_uniform_witness :
    probR (newMappedProbDistR [("A", probEncR.mk FR.ninf [])] true) "A"
      = FR.fin 1 := by
  have h := mappedProbDist_underflow_uniform [("A", probEncR.mk FR.ninf [])]
    (by simp) rfl "A" (probEncR.mk (log2R (goInvR 1)) []) rfl
  exact h.2.trans (by norm_num)

/-! ## The averaged-perceptron part-of-speech tagger (`tag.go`)

Strings are again `List Char`; Go's byte indexing (`w[0]`,
`w[len(w)-suf:]`) is modeled by character indexing, which agrees with it
on ASCII text; `strings.ToLower` is modeled by ASCII lowercasing.
`strconv.Atoi` success is modeled without the 64-bit range check, which
cannot fire at its two call sites (a 4-character string and a
1-character string). Go maps are insertion-ordered association lists,
and the out-of-range slice reads on which Go would panic are totalized
with `getD` defaults. -/

/-- Source: `var emoticons` (tokenizer.go) — the emoticon lexicon,
keys in source order. -/
def emoticonsL : List Str :=
  ["(-8".toList, "(-;".toList, "(-_-)".toList, "(._.)".toList,
   "(:".toList, "(=".toList, "(o:".toList, "(¬_¬)".toList,
   "(ಠ_ಠ)".toList,
   "(╯°□°）╯︵┻━┻".toList,
   "-__-".toList, "8-)".toList, "8-D".toList, "8D".toList,
   ":(".toList, ":((".toList, ":(((".toList, ":()".toList,
   ":)))".toList, ":-)".toList, ":-))".toList, ":-)))".toList,
   ":-*".toList, ":-/".toList, ":-X".toList, ":-]".toList,
   ":-o".toList, ":-p".toList, ":-x".toList, ":-|".toList,
   ":-\x7d".toList, ":0".toList, ":3".toList, ":P".toList,
   ":]".toList, ":`(".toList, ":`)".toList, ":`-(".toList,
   ":o".toList, ":o)".toList, "=(".toList, "=)".toList,
   "=D".toList, "=|".toList, "@_@".toList, "O.o".toList,
   "O_o".toList, "V_V".toList, "XDD".toList, "[-:".toList,
   "^___^".toList, "o_0".toList, "o_O".toList, "o_o".toList,
   "v_v".toList, "xD".toList, "xDD".toList,
   "¯\\(ツ)/¯".toList]

/-- RE2 `\w`: ASCII word character. -/
def wchar (c : Char) : Bool := c.isAlphanum || c = '_'

/-- One to three ASCII digits. -/
def digits13 (ds : Str) : Bool :=
  decide (ds ≠ []) && decide (ds.length ≤ 3) && ds.all Char.isDigit

/-- Source: `var none = regexp.MustCompile(...)` — anchored match of
`0`, `*`, `*c*` for a word character or `?`, `*-` plus 1 to 3 digits,
or `*`, uppercase run, `*-`, 1 to 3 digits. In the last alternative
the uppercase run before the `*` is unique, so the greedy scan is
exact. -/
def noneMatch (s : Str) : Bool :=
  decide (s = ['0']) || decide (s = ['*']) ||
  (match s with
   | ['*', c, '*'] => wchar c || c = '?'
   | _ => false) ||
  (match s with
   | '*' :: '-' :: ds => digits13 ds
   | _ => false) ||
  (match s with
   | '*' :: rest =>
     let ups := rest.takeWhile Char.isUpper
     decide (ups ≠ []) &&
       (match rest.drop ups.length with
        | '*' :: '-' :: ds => digits13 ds
        | _ => false)
   | _ => false)

/-- Source: `var keep = regexp.MustCompile` of an anchored hyphen,
three uppercase letters, hyphen. -/
def keepMatch (s : Str) : Bool :=
  match s with
  | ['-', a, b, c, '-'] => a.isUpper && b.isUpper && c.isUpper
  | _ => false

/-- `strconv.Atoi` succeeds: optional sign then at least one digit
(64-bit range check omitted; see the section comment). -/
def atoiOk (s : Str) : Bool :=
  match s with
  | [] => false
  | c :: rest =>
    if c = '+' ∨ c = '-' then decide (rest ≠ []) && rest.all Char.isDigit
    else (c :: rest).all Char.isDigit

/-- Source: func `normalize`. -/
def normalize (w : Str) : Str :=
  if w = [] then w
  else if '-' ∈ w ∧ w.headD ' ' ≠ '-' then "!HYPHEN".toList
  else if atoiOk w ∧ w.length = 4 then "!YEAR".toList
  else if (w.headD ' ').isDigit then "!DIGITS".toList
  else w.map Char.toLower

/-- The context slice built at the top of `Tag`. -/
def mkContext (texts : List Str) : List Str :=
  "-START-".toList :: "-START2-".toList :: texts.map normalize
    ++ ["-END-".toList, "-END2-".toList]

/-- `strings.Join` with a single space. -/
def joinSp : List Str → Str
  | [] => []
  | [x] => x
  | x :: rest => x ++ ' ' :: joinSp rest

/-- Source: func `featurize` — the 14 feature strings. -/
def featurize (i : ℕ) (ctx : List Str) (w p1 p2 : Str) : Fin 14 → Str :=
  let suf := min w.length 3
  let j := min (ctx.length - 2) (i + 2)
  let im := min (ctx.getD (j - 1) []).length 3
  let ip := min (ctx.getD (j + 1) []).length 3
  ![ "bias".toList,
     joinSp ["i suffix".toList, w.drop (w.length - suf)],
     joinSp ["i pref1".toList, w.take 1],
     joinSp ["i-1 tag".toList, p1],
     joinSp ["i-2 tag".toList, p2],
     joinSp ["i tag+i-2 tag".toList, p1, p2],
     joinSp ["i word".toList, ctx.getD j []],
     joinSp ["i-1 tag+i word".toList, p1, ctx.getD j []],
     joinSp ["i-1 word".toList, ctx.getD (j - 1) []],
     joinSp ["i-1 suffix".toList,
       (ctx.getD (j - 1) []).drop ((ctx.getD (j - 1) []).length - im)],
     joinSp ["i-2 word".toList, ctx.getD (j - 2) []],
     joinSp ["i+1 word".toList, ctx.getD (j + 1) []],
     joinSp ["i+1 suffix".toList,
       (ctx.getD (j + 1) []).drop ((ctx.getD (j + 1) []).length - ip)],
     joinSp ["i+2 word".toList, ctx.getD (j + 2) []] ]

/-- Go map lookup, generic in the value type. -/
def glookup {α : Type} (k : Str) : List (Str × α) → Option α
  | [] => none
  | p :: rest => if p.1 = k then some p.2 else glookup k rest

/-- Source: `type averagedPerceptron struct` — float64 weights as exact
rationals. -/
structure averagedPerceptron where
  classes : List Str
  tagMap : List (Str × Str)
  linearWeights : List (Str × List ℚ)

/-- The inner loop of `predict`: `for label, weight := range weights`,
adding `weights[label]` into `scores[label]` from position `j` on. -/
def addWsFrom (sc : List ℚ) (j : ℕ) : List ℚ → List ℚ
  | [] => sc
  | w :: rest => addWsFrom (sc.set j (sc.getD j 0 + w)) (j + 1) rest

/-- One feature's contribution to the score slice (absent features are
skipped). -/
def scoreStep (m : averagedPerceptron) (sc : List ℚ) (feat : Str) : List ℚ :=
  match glookup feat m.linearWeights with
  | none => sc
  | some ws => addWsFrom sc 0 ws

/-- The score slice of `predict`: zeros, then every feature's weight
vector added in. -/
def scoresOf (m : averagedPerceptron) (feats : Fin 14 → Str) : List ℚ :=
  (List.finRange 14).foldl (fun sc s => scoreStep m sc (feats s))
    (List.replicate m.classes.length 0)

/-- Source: func `max(scores []float64) int` — fold with the running
best value, updating on strict improvement only. -/
def goMaxAux : List ℚ → ℕ → ℕ × WithBot ℚ → ℕ × WithBot ℚ
  | [], _, acc => acc
  | v :: rest, idx, acc =>
    goMaxAux rest (idx + 1) (if acc.2 < (v : WithBot ℚ) then (idx, (v : WithBot ℚ)) else acc)

/-- The index `max` returns, starting from class 0 and `-Inf`. -/
def goMax (scores : List ℚ) : ℕ := (goMaxAux scores 0 (0, ⊥)).1

/-- Source: method `predict` — the class at the arg-max score. -/
def averagedPerceptron.predict (m : averagedPerceptron) (feats : Fin 14 → Str) : Str :=
  m.classes.getD (goMax (scoresOf m feats)) []

/-- The weight of a (feature, label) pair, 0 when missing. -/
def weightOf (m : averagedPerceptron) (feat : Str) (k : ℕ) : ℚ :=
  match glookup feat m.linearWeights with
  | none => 0
  | some ws => ws.getD k 0

/-- A token as tagged by the perceptron tagger. -/
structure TokenP where
  Text : Str
  Tag : Str
deriving DecidableEq

/-- The per-token decision chain in the body of `Tag`. -/
def tagTok (m : averagedPerceptron) (ctx : List Str) (i : ℕ) (p1 p2 : Str)
    (w : Str) : Str :=
  if w = "-".toList then "-".toList
  else if w ∈ emoticonsL then "SYM".toList
  else if w.take 1 = ['@'] then "NN".toList
  else if noneMatch w then "-NONE-".toList
  else if keepMatch w then w
  else
    match glookup w m.tagMap with
    | some t => t
    | none => m.predict (featurize i ctx w p1 p2)

/-- The loop of `Tag`, threading the two previous tags. -/
def tagAux (m : averagedPerceptron) (ctx : List Str) :
    List TokenP → ℕ → Str → Str → List TokenP
  | [], _, _, _ => []
  | tok :: rest, i, p1, p2 =>
    let t := tagTok m ctx i p1 p2 tok.Text
    { tok with Tag := t } :: tagAux m ctx rest (i + 1) t p1

/-- Source: `type PerceptronTagger struct`. -/
structure PerceptronTagger where
  model : averagedPerceptron

/-- Source: method `PerceptronTagger.Tag`. -/
def PerceptronTagger.Tag (pt : PerceptronTagger) (tokens : List TokenP) : List TokenP :=
  tagAux pt.model (mkContext (tokens.map TokenP.Text)) tokens 0
    "-START-".toList "-START2-".toList

/-! Score-slice lemmas. -/

/-- `addWsFrom` never changes the slice length. -/
theorem addWsFrom_length : ∀ (ws : List ℚ) (sc : List ℚ) (j : ℕ),
    (addWsFrom sc j ws).length = sc.length
  | [], _, _ => rfl
  | w :: rest, sc, j => by
    rw [addWsFrom, addWsFrom_length rest]
    exact List.length_set sc j _

/-- Entrywise effect of `addWsFrom`. -/
theorem addWsFrom_getD : ∀ (ws : List ℚ) (sc : List ℚ) (j k : ℕ),
    k < sc.length →
    (addWsFrom sc j ws).getD k 0
      = sc.getD k 0 + (if j ≤ k then ws.getD (k - j) 0 else 0)
  | [], sc, j, k, _ => by
    simp [addWsFrom]
  | w :: rest, sc, j, k, hk => by
    rw [addWsFrom, addWsFrom_getD rest _ (j + 1) k (by simpa using hk)]
    by_cases hkj : k = j
    · rw [hkj, getD_set_self sc (hkj ▸ hk), if_neg (show ¬ j + 1 ≤ j by omega),
        if_pos (le_refl j), Nat.sub_self, List.getD_cons_zero]
      ring
    · rw [getD_set_ne sc (fun h => hkj h.symm)]
      by_cases hle : j ≤ k
      · have hlt : j + 1 ≤ k := by omega
        rw [if_pos hle, if_pos hlt]
        have hs : k - j = (k - (j + 1)) + 1 := by omega
        rw [hs, List.getD_cons_succ]
      · rw [if_neg hle, if_neg (by omega)]

/-- `scoreStep` never changes the slice length. -/
theorem scoreStep_length (m : averagedPerceptron) (sc : List ℚ) (feat : Str) :
    (scoreStep m sc feat).length = sc.length := by
  rw [scoreStep]
  cases glookup feat m.linearWeights with
  | none => rfl
  | some ws => exact addWsFrom_length ws sc 0

/-- Entrywise effect of `scoreStep`: add the feature's weight. -/
theorem scoreStep_getD (m : averagedPerceptron) (sc : List ℚ) (feat : Str)
    (k : ℕ) (hk : k < sc.length) :
    (scoreStep m sc feat).getD k 0 = sc.getD k 0 + weightOf m feat k := by
  rw [scoreStep, weightOf]
  cases glookup feat m.linearWeights with
  | none => simp
  | some ws =>
    rw [addWsFrom_getD ws sc 0 k hk]
    simp

/-- The score slice has one entry per class. -/
theorem scoresOf_length (m : averagedPerceptron) (feats : Fin 14 → Str) :
    (scoresOf m feats).length = m.classes.length := by
  rw [scoresOf]
  have h := foldl_preserve (fun sc : List ℚ => sc.length = m.classes.length)
    (fun sc s => scoreStep m sc (feats s)) (List.finRange 14)
    (List.replicate m.classes.length 0)
    (fun sc b _ hsc => (scoreStep_length m sc (feats b)).trans hsc)
    (List.length_replicate _ _)
  exact h

/-- Generic slot fold: the entry at `k` accumulates the slot weights. -/
theorem foldlScore_getD (m : averagedPerceptron) (feats : Fin 14 → Str) :
    ∀ (slots : List (Fin 14)) (sc : List ℚ) (k : ℕ), k < sc.length →
      ((slots.foldl (fun sc s => scoreStep m sc (feats s)) sc).getD k 0
        = sc.getD k 0 + (slots.map fun s => weightOf m (feats s) k).sum)
  | [], sc, k, _ => by simp
  | s :: rest, sc, k, hk => by
    rw [List.foldl_cons, foldlScore_getD m feats rest _ k
      (by rw [scoreStep_length]; exact hk), scoreStep_getD m sc (feats s) k hk]
    simp [add_assoc]

/-- The score of label `k` is the sum over the 14 slots of the slot's
weight at `k`. -/
theorem scoresOf_getD (m : averagedPerceptron) (feats : Fin 14 → Str)
    (k : ℕ) (hk : k < m.classes.length) :
    (scoresOf m feats).getD k 0
      = ((List.finRange 14).map fun s => weightOf m (feats s) k).sum := by
  rw [scoresOf, foldlScore_getD m feats (List.finRange 14) _ k
    (by simpa using hk)]
  simp

/-! Arg-max lemmas for `max(scores)`. -/

/-- Behaviour of the `max` fold: either no element beats the seed and
the accumulator survives, or the result is the first position of the
running maximum. -/
theorem goMaxAux_spec : ∀ (l : List ℚ) (idx : ℕ) (acc : ℕ × WithBot ℚ),
    (goMaxAux l idx acc = acc ∧ ∀ v ∈ l, ¬ acc.2 < (v : WithBot ℚ))
    ∨ (∃ j, j < l.length
        ∧ (goMaxAux l idx acc).1 = idx + j
        ∧ (goMaxAux l idx acc).2 = ((l.getD j 0 : ℚ) : WithBot ℚ)
        ∧ acc.2 < (goMaxAux l idx acc).2
        ∧ (∀ k, k < l.length → ((l.getD k 0 : ℚ) : WithBot ℚ) ≤ (goMaxAux l idx acc).2)
        ∧ (∀ k, k < j → ((l.getD k 0 : ℚ) : WithBot ℚ) < (goMaxAux l idx acc).2))
  | [], idx, acc => Or.inl ⟨rfl, by simp⟩
  | v :: rest, idx, acc => by
    rw [goMaxAux]
    by_cases hv : acc.2 < (v : WithBot ℚ)
    · rw [if_pos hv]
      rcases goMaxAux_spec rest (idx + 1) (idx, (v : WithBot ℚ)) with
        ⟨heq, hall⟩ | ⟨j, hj, h1, h2, h3, h4, h5⟩
      · refine Or.inr ⟨0, by simp, ?_, ?_, ?_, ?_, ?_⟩
        · rw [heq]
          simp
        · rw [heq]
          simp
        · rw [heq]
          exact hv
        · intro k hk
          rw [heq]
          match k with
          | 0 => simp
          | k + 1 =>
            rw [List.getD_cons_succ]
            have hmem : rest.getD k 0 ∈ rest := by
              rw [List.getD_eq_getElem rest 0 (by simpa using hk)]
              exact List.getElem_mem _
            exact not_lt.1 (hall _ hmem)
        · intro k hk
          exact absurd hk (Nat.not_lt_zero k)
      · refine Or.inr ⟨j + 1, by simp only [List.length_cons]; omega,
          by rw [h1]; omega, by rwa [List.getD_cons_succ], lt_trans hv h3, ?_, ?_⟩
        · intro k hk
          match k with
          | 0 =>
            rw [List.getD_cons_zero]
            exact le_of_lt h3
          | k + 1 =>
            rw [List.getD_cons_succ]
            exact h4 k (by simpa using hk)
        · intro k hk
          match k with
          | 0 =>
            rw [List.getD_cons_zero]
            exact h3
          | k + 1 =>
            rw [List.getD_cons_succ]
            exact h5 k (by omega)
    · rw [if_neg hv]
      rcases goMaxAux_spec rest (idx + 1) acc with
        ⟨heq, hall⟩ | ⟨j, hj, h1, h2, h3, h4, h5⟩
      · refine Or.inl ⟨heq, ?_⟩
        intro u hu
        rcases List.mem_cons.1 hu with h | h
        · rw [h]
          exact hv
        · exact hall u h
      · refine Or.inr ⟨j + 1, by simp only [List.length_cons]; omega,
          by rw [h1]; omega, by rwa [List.getD_cons_succ], h3, ?_, ?_⟩
        · intro k hk
          match k with
          | 0 =>
            rw [List.getD_cons_zero]
            exact le_of_lt (lt_of_le_of_lt (not_lt.1 hv) h3)
          | k + 1 =>
            rw [List.getD_cons_succ]
            exact h4 k (by simpa using hk)
        · intro k hk
          match k with
          | 0 =>
            rw [List.getD_cons_zero]
            exact lt_of_le_of_lt (not_lt.1 hv) h3
          | k + 1 =>
            rw [List.getD_cons_succ]
            exact h5 k (by omega)

/-- `max` returns the first index attaining the maximum score. -/
theorem goMax_spec (scores : List ℚ) (h : scores ≠ []) :
    goMax scores < scores.length
    ∧ (∀ k, k < scores.length →
        scores.getD k 0 ≤ scores.getD (goMax scores) 0)
    ∧ (∀ k, k < goMax scores →
        scores.getD k 0 < scores.getD (goMax scores) 0) := by
  rcases goMaxAux_spec scores 0 (0, ⊥) with ⟨_, hall⟩ | ⟨j, hj, h1, h2, _, h4, h5⟩
  · exfalso
    match scores, h with
    | v :: rest, _ => exact hall v (List.mem_cons_self v rest) (WithBot.bot_lt_coe v)
  · have hgj : goMax scores = j := by rw [goMax, h1]; omega
    refine ⟨by omega, ?_, ?_⟩
    · intro k hk
      have := h4 k hk
      rw [h2] at this
      rw [hgj]
      exact_mod_cast this
    · intro k hk
      have := h5 k (by omega)
      rw [h2] at this
      rw [hgj]
      exact_mod_cast this

/-! The `Tag` loop, step by step. -/

/-- `tagAux` returns one token per input token. -/
theorem tagAux_length (m : averagedPerceptron) (ctx : List Str) :
    ∀ (ws : List TokenP) (k : ℕ) (p1 p2 : Str),
      (tagAux m ctx ws k p1 p2).length = ws.length
  | [], _, _, _ => rfl
  | tok :: rest, k, p1, p2 => by
    simp only [tagAux, List.length_cons]
    rw [tagAux_length m ctx rest]

/-- Each emitted tag is the decision chain applied at that index, with
the two previous emitted tags (or the start padding) threaded in. -/
theorem tagAux_getD (m : averagedPerceptron) (ctx : List Str) :
    ∀ (ws : List TokenP) (k : ℕ) (p1 p2 : Str) (i : ℕ), i < ws.length →
      ((tagAux m ctx ws k p1 p2).map TokenP.Tag).getD i []
        = tagTok m ctx (k + i)
            ((p2 :: p1 :: (tagAux m ctx ws k p1 p2).map TokenP.Tag).getD (i + 1) [])
            ((p2 :: p1 :: (tagAux m ctx ws k p1 p2).map TokenP.Tag).getD i [])
            ((ws.map TokenP.Text).getD i [])
  | tok :: rest, k, p1, p2, 0, _ => rfl
  | tok :: rest, k, p1, p2, i + 1, hi => by
    have IH := tagAux_getD m ctx rest (k + 1) (tagTok m ctx k p1 p2 tok.Text) p1 i
      (by simpa using hi)
    simp only [tagAux, List.map_cons, List.getD_cons_succ] at IH ⊢
    rw [show k + (i + 1) = k + 1 + i by omega]
    exact IH

/-- The tags assigned by `Tag`, in order. -/
def tagsOf (pt : PerceptronTagger) (tokens : List TokenP) : List Str :=
  (PerceptronTagger.Tag pt tokens).map TokenP.Tag

/-- The assigned tags preceded by the two start sentinels, so that entry
`i + 1` is the previous tag at step `i` and entry `i` the one before. -/
def padsOf (pt : PerceptronTagger) (tokens : List TokenP) : List Str :=
  "-START2-".toList :: "-START-".toList :: tagsOf pt tokens

/-- The raw text of token `i`. -/
def wordAt (tokens : List TokenP) (i : ℕ) : Str :=
  (tokens.map TokenP.Text).getD i []

/-- The 14 feature strings computed at step `i` of `Tag`. -/
def featsAt (pt : PerceptronTagger) (tokens : List TokenP) (i : ℕ) : Fin 14 → Str :=
  featurize i (mkContext (tokens.map TokenP.Text)) (wordAt tokens i)
    ((padsOf pt tokens).getD (i + 1) []) ((padsOf pt tokens).getD i [])

/-- C8: each token tagged by `PerceptronTagger.Tag` follows the priority
chain: a literal hyphen is tagged "-"; otherwise an emoticon-lexicon
word "SYM"; otherwise an "@"-prefixed word "NN"; otherwise a placeholder
(`none` regex) match "-NONE-"; otherwise a frozen-abbreviation (`keep`
regex) match is its own tag; otherwise a memorized `tagMap` hit is the
memorized tag; otherwise the tag is the class at the arg-max, over the
class list, of the score summing across the 14 feature slots the weight
of (feature, label), missing entries contributing 0, ties resolved in
favour of the earliest class. -/
theorem tag_priority (pt : PerceptronTagger) (tokens : List TokenP)
    (hcls : pt.model.classes ≠ [])
    (i : ℕ) (hi : i < tokens.length) :
    (PerceptronTagger.Tag pt tokens).length = tokens.length
    ∧ (wordAt tokens i = "-".toList →
        (tagsOf pt tokens).getD i [] = "-".toList)
    ∧ (wordAt tokens i ≠ "-".toList → wordAt tokens i ∈ emoticonsL →
        (tagsOf pt tokens).getD i [] = "SYM".toList)
    ∧ (wordAt tokens i ≠ "-".toList → wordAt tokens i ∉ emoticonsL →
        (wordAt tokens i).take 1 = ['@'] →
        (tagsOf pt tokens).getD i [] = "NN".toList)
    ∧ (wordAt tokens i ≠ "-".toList → wordAt tokens i ∉ emoticonsL →
        (wordAt tokens i).take 1 ≠ ['@'] →
        noneMatch (wordAt tokens i) = true →
        (tagsOf pt tokens).getD i [] = "-NONE-".toList)
    ∧ (wordAt tokens i ≠ "-".toList → wordAt tokens i ∉ emoticonsL →
        (wordAt tokens i).take 1 ≠ ['@'] →
        noneMatch (wordAt tokens i) = false →
        keepMatch (wordAt tokens i) = true →
        (tagsOf pt tokens).getD i [] = wordAt tokens i)
    ∧ (∀ tg, wordAt tokens i ≠ "-".toList → wordAt tokens i ∉ emoticonsL →
        (wordAt tokens i).take 1 ≠ ['@'] →
        noneMatch (wordAt tokens i) = false →
        keepMatch (wordAt tokens i) = false →
        glookup (wordAt tokens i) pt.model.tagMap = some tg →
        (tagsOf pt tokens).getD i [] = tg)
    ∧ (wordAt tokens i ≠ "-".toList → wordAt tokens i ∉ emoticonsL →
        (wordAt tokens i).take 1 ≠ ['@'] →
        noneMatch (wordAt tokens i) = false →
        keepMatch (wordAt tokens i) = false →
        glookup (wordAt tokens i) pt.model.tagMap = none →
        ∃ j, j < pt.model.classes.length
          ∧ (tagsOf pt tokens).getD i [] = pt.model.classes.getD j []
          ∧ (∀ k, k < pt.model.classes.length →
              (scoresOf pt.model (featsAt pt tokens i)).getD k 0
                ≤ (scoresOf pt.model (featsAt pt tokens i)).getD j 0)
          ∧ (∀ k, k < j →
              (scoresOf pt.model (featsAt pt tokens i)).getD k 0
                < (scoresOf pt.model (featsAt pt tokens i)).getD j 0)
          ∧ (∀ k, k < pt.model.classes.length →
              (scoresOf pt.model (featsAt pt tokens i)).getD k 0
                = ((List.finRange 14).map fun s =>
                    weightOf pt.model (featsAt pt tokens i s) k).sum)) := by
  have key : (tagsOf pt tokens).getD i []
      = tagTok pt.model (mkContext (tokens.map TokenP.Text)) i
          ((padsOf pt tokens).getD (i + 1) []) ((padsOf pt tokens).getD i [])
          (wordAt tokens i) := by
    have h := tagAux_getD pt.model (mkContext (tokens.map TokenP.Text)) tokens 0
      "-START-".toList "-START2-".toList i hi
    simpa [tagsOf, padsOf, wordAt, PerceptronTagger.Tag] using h
  refine ⟨?_, ?_, ?_, ?_, ?_, ?_, ?_, ?_⟩
  · rw [PerceptronTagger.Tag]
    exact tagAux_length pt.model _ tokens 0 _ _
  · intro h1
    rw [key, tagTok, if_pos h1]
  · intro h1 h2
    rw [key, tagTok, if_neg h1, if_pos h2]
  · intro h1 h2 h3
    rw [key, tagTok, if_neg h1, if_neg h2, if_pos h3]
  · intro h1 h2 h3 h4
    rw [key, tagTok, if_neg h1, if_neg h2, if_neg h3, if_pos (by rw [h4])]
  · intro h1 h2 h3 h4 h5
    rw [key, tagTok, if_neg h1, if_neg h2, if_neg h3,
      if_neg (by rw [h4]; exact Bool.false_ne_true), if_pos (by rw [h5])]
  · intro tg h1 h2 h3 h4 h5 hlook
    rw [key, tagTok, if_neg h1, if_neg h2, if_neg h3,
      if_neg (by rw [h4]; exact Bool.false_ne_true),
      if_neg (by rw [h5]; exact Bool.false_ne_true), hlook]
  · intro h1 h2 h3 h4 h5 hlook
    have hlenS : (scoresOf pt.model (featsAt pt tokens i)).length
        = pt.model.classes.length := scoresOf_length pt.model _
    have hne : scoresOf pt.model (featsAt pt tokens i) ≠ [] := by
      intro hnil
      rw [hnil] at hlenS
      exact hcls (List.length_eq_zero.1 hlenS.symm)
    obtain ⟨hjlt, hmax, hfirst⟩ :=
      goMax_spec (scoresOf pt.model (featsAt pt tokens i)) hne
    refine ⟨goMax (scoresOf pt.model (featsAt pt tokens i)), by omega, ?_, ?_, ?_, ?_⟩
    · rw [key, tagTok, if_neg h1, if_neg h2, if_neg h3,
        if_neg (by rw [h4]; exact Bool.false_ne_true),
        if_neg (by rw [h5]; exact Bool.false_ne_true), hlook]
      rfl
    · intro k hk
      exact hmax k (by omega)
    · exact hfirst
    · intro k hk
      exact scoresOf_getD pt.model _ k hk
  
/-- A two-class model with a single weighted feature, for the witness. -/
def taggerW : PerceptronTagger :=
  ⟨⟨["A".toList, "B".toList], [], [("bias".toList, [(1 : ℚ), 2])]⟩⟩

/-- Witness for C8: on a token missing from every lexicon the tagger
emits one token whose tag is one of the model classes, by the arg-max
clause. -/
theorem tag_priority_witness :
    (PerceptronTagger.Tag taggerW [TokenP.mk "zzz".toList []]).length = 1
      ∧ ∃ j, j < taggerW.model.classes.length
          ∧ (tagsOf taggerW [TokenP.mk "zzz".toList []]).getD 0 []
              = taggerW.model.classes.getD j [] := by
  have h := tag_priority taggerW [TokenP.mk "zzz".toList []] (by decide) 0 (by decide)
  refine ⟨h.1, ?_⟩
  obtain ⟨j, hj, ht, _⟩ := h.2.2.2.2.2.2.2 (by decide) (by decide) (by decide)
    (by decide) (by decide) (by decide)
  exact ⟨j, hj, ht⟩

end Prose
